import Mathlib

/- Shallow embedding of `baseband/vlbi_base/utils.py` (BCD codec and CRC engine)
   together with spec-modelled parts of the Mark5B header / payload / frame /
   stream layer, and proofs of the specification claims about them. -/

/-! ## BCD codec (`bcd_decode`, `bcd_encode` in `vlbi_base/utils.py`) -/

/-- Scalar fast path of `bcd_decode`: `int('{:x}'.format(value))` parses the
hexadecimal digit string of `value` as a decimal number; it raises `ValueError`
(modelled as `none`) exactly when some hexadecimal digit is not a decimal
digit. -/
def bcd_decode_scalar (value : Nat) : Option Nat :=
  if (Nat.digits 16 value).all (fun d => decide (d ≤ 9)) then
    some (Nat.ofDigits 10 (Nat.digits 16 value))
  else none

/-- Scalar fast path of `bcd_encode`: `int('{:d}'.format(value), base=16)`
reads the decimal digit string of `value` as a hexadecimal numeral. -/
def bcd_encode_scalar (value : Nat) : Nat := Nat.ofDigits 16 (Nat.digits 10 value)

/-- The `k`-th hexadecimal nibble of `b`. -/
def nib (k b : Nat) : Nat := b / 16 ^ k % 16

/-- A value is valid BCD when every hexadecimal nibble is a decimal digit
(spec: "every nibble ≤ 9"). -/
def BCDValid (b : Nat) : Prop := ∀ k, nib k b ≤ 9

/-- The mathematical value denoted by a valid BCD word: its hexadecimal digits
read as decimal digits. -/
def decVal (b : Nat) : Nat := Nat.ofDigits 10 (Nat.digits 16 b)

/-- A numpy intermediate result that is either still the plain scalar `0`
(`result = 0` in `bcd_encode`) or an array. -/
inductive NpResult where
  | scalar : Nat → NpResult
  | array : List Nat → NpResult
deriving DecidableEq

/-- numpy broadcast addition `result + digit * factor` as it appears in
`bcd_encode`: a scalar on the left broadcasts over the array on the right. -/
def npAddBroadcast : NpResult → List Nat → NpResult
  | .scalar s, l => .array (l.map (fun x => s + x))
  | .array a, l => .array (List.zipWith (· + ·) a l)

theorem sum_map_div_le (d : Nat) :
    ∀ l : List Nat, (l.map (fun v => v / d)).sum ≤ l.sum := by
  intro l
  induction l with
  | nil => simp
  | cons x t ih =>
    simp only [List.map_cons, List.sum_cons]
    exact Nat.add_le_add (Nat.div_le_self x d) ih

theorem sum_map_div_lt (d : Nat) (hd : 2 ≤ d) :
    ∀ l : List Nat, l.any (fun v => decide (0 < v)) = true →
      (l.map (fun v => v / d)).sum < l.sum := by
  intro l h
  induction l with
  | nil => simp at h
  | cons x t ih =>
    simp only [List.any_cons, Bool.or_eq_true, decide_eq_true_eq] at h
    simp only [List.map_cons, List.sum_cons]
    rcases h with hx | ht
    · have h1 : x / d < x := Nat.div_lt_self hx (by omega)
      have h2 := sum_map_div_le d t
      omega
    · have h1 : x / d ≤ x := Nat.div_le_self x d
      have h2 := ih ht
      omega

/-- The `while np.any(value > 0)` loop of `bcd_encode` for array input:
`value, digit = divmod(value, 10); result += digit * factor; factor *= 16`. -/
def bcd_encode_array_go (value : List Nat) (result : NpResult) (factor : Nat) :
    NpResult :=
  if h : value.any (fun v => decide (0 < v)) = true then
    bcd_encode_array_go (value.map (fun v => v / 10))
      (npAddBroadcast result (value.map (fun v => v % 10 * factor)))
      (factor * 16)
  else result
termination_by value.sum
decreasing_by exact sum_map_div_lt 10 (by omega) value h

/-- Array path of `bcd_encode`: `result = np.zeros_like(value); result = 0`
immediately rebinds the result to the plain scalar `0` before the digit
loop. -/
def bcd_encode_array (value : List Nat) : NpResult :=
  bcd_encode_array_go value (.scalar 0) 1

/-- `value[digit > 9][0]`: the first element of `value` at a position where
the current digit exceeds 9. -/
def reportOffending (value digit : List Nat) : Nat :=
  (((value.zip digit).filter (fun p => decide (9 < p.2))).map Prod.fst).headD 0

/-- The `while np.any(bcd > 0)` loop of `bcd_decode` for array input:
`bcd, digit = divmod(bcd, 0x10)`; raise on any digit above 9, reporting
`value[digit > 9][0]`; otherwise `result += digit * factor; factor *= 10`. -/
def bcd_decode_array_go (value bcd : List Nat) (factor : Nat)
    (result : List Nat) : Except Nat (List Nat) :=
  if h : bcd.any (fun v => decide (0 < v)) = true then
    let digit := bcd.map (fun v => v % 16)
    if digit.any (fun d => decide (9 < d)) then
      Except.error (reportOffending value digit)
    else
      bcd_decode_array_go value (bcd.map (fun v => v / 16)) (factor * 10)
        (List.zipWith (fun r d => r + d * factor) result digit)
  else Except.ok result
termination_by bcd.sum
decreasing_by exact sum_map_div_lt 16 (by omega) bcd h

/-- Array path of `bcd_decode`: `result = np.zeros_like(value)`, then the
digit loop over `bcd = value`. -/
def bcd_decode_array (value : List Nat) : Except Nat (List Nat) :=
  bcd_decode_array_go value value 1 (value.map (fun _ => 0))

/-! ### Basic facts about nibbles, digits and the scalar codec -/

theorem nib_zero_val (k : Nat) : nib k 0 = 0 := by
  simp [nib]

theorem nib_succ (k b : Nat) : nib (k + 1) b = nib k (b / 16) := by
  simp [nib, Nat.pow_succ, Nat.div_div_eq_div_mul, Nat.mul_comm]

theorem pos_of_nib_gt (k b : Nat) (h : 9 < nib k b) : 0 < b := by
  rcases Nat.eq_zero_or_pos b with rfl | hb
  · rw [nib_zero_val] at h; omega
  · exact hb

theorem bcdValid_zero : BCDValid 0 := fun k => by simp [nib]

theorem bcdValid_iff (b : Nat) :
    BCDValid b ↔ b % 16 ≤ 9 ∧ BCDValid (b / 16) := by
  constructor
  · intro h
    refine ⟨by simpa [nib] using h 0, fun k => ?_⟩
    rw [← nib_succ]
    exact h (k + 1)
  · rintro ⟨h0, h⟩ k
    cases k with
    | zero => simpa [nib] using h0
    | succ k => rw [nib_succ]; exact h k

theorem bcdValid_iff_digits (b : Nat) :
    BCDValid b ↔ ∀ d ∈ Nat.digits 16 b, d ≤ 9 := by
  induction b using Nat.strong_induction_on with
  | _ b ih =>
    rcases Nat.eq_zero_or_pos b with rfl | hb
    · simp [bcdValid_zero]
    · rw [Nat.digits_def' (by norm_num : (1:ℕ) < 16) hb, bcdValid_iff,
        ih (b / 16) (Nat.div_lt_self hb (by norm_num))]
      simp [List.forall_mem_cons]

theorem bcd_encode_scalar_zero : bcd_encode_scalar 0 = 0 := by
  simp [bcd_encode_scalar]

theorem bcd_encode_scalar_rec (n : Nat) :
    bcd_encode_scalar n = n % 10 + 16 * bcd_encode_scalar (n / 10) := by
  rcases Nat.eq_zero_or_pos n with rfl | hn
  · simp [bcd_encode_scalar]
  · rw [bcd_encode_scalar, Nat.digits_def' (by norm_num : (1:ℕ) < 10) hn,
      Nat.ofDigits_cons, bcd_encode_scalar]

theorem digits16_bcd_encode_scalar (n : Nat) :
    Nat.digits 16 (bcd_encode_scalar n) = Nat.digits 10 n := by
  rcases Nat.eq_zero_or_pos n with rfl | hn
  · simp [bcd_encode_scalar]
  · refine Nat.digits_ofDigits 16 (by norm_num) _ ?_ ?_
    · intro l hl
      exact lt_trans (Nat.digits_lt_base (by norm_num) hl) (by norm_num)
    · intro h
      exact Nat.getLast_digit_ne_zero 10 (Nat.pos_iff_ne_zero.mp hn)

theorem decVal_zero : decVal 0 = 0 := by
  simp [decVal]

theorem decVal_rec (b : Nat) : decVal b = b % 16 + 10 * decVal (b / 16) := by
  rcases Nat.eq_zero_or_pos b with rfl | hb
  · simp [decVal]
  · rw [decVal, Nat.digits_def' (by norm_num : (1:ℕ) < 16) hb,
      Nat.ofDigits_cons, decVal]

theorem decVal_bcd_encode_scalar (n : Nat) : decVal (bcd_encode_scalar n) = n := by
  rw [decVal, digits16_bcd_encode_scalar, Nat.ofDigits_digits]

theorem bcdValid_bcd_encode_scalar (n : Nat) : BCDValid (bcd_encode_scalar n) := by
  rw [bcdValid_iff_digits, digits16_bcd_encode_scalar]
  intro d hd
  have := Nat.digits_lt_base (by norm_num : (1:ℕ) < 10) hd
  omega

theorem bcd_decode_scalar_bcd_encode_scalar (n : Nat) :
    bcd_decode_scalar (bcd_encode_scalar n) = some n := by
  rw [bcd_decode_scalar, if_pos, digits16_bcd_encode_scalar, Nat.ofDigits_digits]
  rw [List.all_eq_true]
  intro d hd
  rw [digits16_bcd_encode_scalar] at hd
  have := Nat.digits_lt_base (by norm_num : (1:ℕ) < 10) hd
  simpa using by omega

/-! ### List helpers for the array-path loops -/

theorem zipWith_collapse (F G : Nat → Nat → Nat) (h k : Nat → Nat) :
    ∀ (res value : List Nat),
      List.zipWith F (List.zipWith G res (value.map h)) (value.map k) =
        List.zipWith (fun r v => F (G r (h v)) (k v)) res value := by
  intro res
  induction res with
  | nil => simp
  | cons a t ih =>
    intro value
    cases value with
    | nil => simp
    | cons b u => simp [ih]

theorem zipWith_congr_fun {f g : Nat → Nat → Nat} (h : ∀ a b, f a b = g a b) :
    ∀ (l1 l2 : List Nat), List.zipWith f l1 l2 = List.zipWith g l1 l2 := by
  intro l1
  induction l1 with
  | nil => simp
  | cons a t ih =>
    intro l2
    cases l2 <;> simp [h, ih]

theorem zipWith_add_zero_of_all_zero (f : Nat → Nat) (hf : f 0 = 0) :
    ∀ (res value : List Nat), res.length = value.length →
      (∀ v ∈ value, v = 0) →
      List.zipWith (fun r v => r + f v) res value = res := by
  intro res
  induction res with
  | nil => simp
  | cons a t ih =>
    intro value hlen hz
    cases value with
    | nil => simp at hlen
    | cons b u =>
      have hb : b = 0 := hz b (List.mem_cons_self _ _)
      simp only [List.zipWith_cons_cons, hb, hf, Nat.add_zero]
      rw [ih u (by simpa using hlen) (fun v hv => hz v (List.mem_cons_of_mem _ hv))]

theorem getD_map_of_lt (f : Nat → Nat) :
    ∀ (l : List Nat) (i : Nat), i < l.length →
      (l.map f).getD i 0 = f (l.getD i 0) := by
  intro l
  induction l with
  | nil => intro i hi; simp at hi
  | cons a t ih =>
    intro i hi
    cases i with
    | zero => simp
    | succ i => simpa using ih i (by simpa using hi)

/-! ### Characterisation of the array-path loops -/

theorem bcd_encode_array_go_array (n : Nat) :
    ∀ (value res : List Nat) (factor : Nat), value.sum ≤ n →
      res.length = value.length →
      bcd_encode_array_go value (.array res) factor =
        .array (List.zipWith (fun r v => r + factor * bcd_encode_scalar v) res value) := by
  induction n using Nat.strong_induction_on with
  | _ n ih =>
    intro value res factor hsum hlen
    rw [bcd_encode_array_go]
    by_cases hany : value.any (fun v => decide (0 < v)) = true
    · rw [dif_pos hany]
      have hlt : (value.map (fun v => v / 10)).sum < n :=
        lt_of_lt_of_le (sum_map_div_lt 10 (by omega) value hany) hsum
      simp only [npAddBroadcast]
      rw [ih _ hlt (value.map (fun v => v / 10))
            (List.zipWith (· + ·) res (value.map (fun v => v % 10 * factor)))
            (factor * 16) le_rfl (by simp [hlen])]
      rw [zipWith_collapse (fun r v => r + factor * 16 * bcd_encode_scalar v) (· + ·)
            (fun v => v % 10 * factor) (fun v => v / 10) res value]
      congr 1
      refine zipWith_congr_fun (fun r v => ?_) res value
      rw [bcd_encode_scalar_rec v]
      ring
    · rw [dif_neg hany]
      have hz : ∀ v ∈ value, v = 0 := by
        intro v hv
        by_contra hne
        exact hany (List.any_eq_true.mpr ⟨v, hv, by simpa using Nat.pos_of_ne_zero hne⟩)
      rw [zipWith_add_zero_of_all_zero (fun v => factor * bcd_encode_scalar v)
            (by simp [bcd_encode_scalar_zero]) res value hlen hz]

theorem bcd_encode_array_eq (l : List Nat) :
    bcd_encode_array l =
      if l.any (fun v => decide (0 < v)) = true then .array (l.map bcd_encode_scalar)
      else .scalar 0 := by
  rw [bcd_encode_array, bcd_encode_array_go]
  by_cases hany : l.any (fun v => decide (0 < v)) = true
  · rw [dif_pos hany, if_pos hany]
    simp only [npAddBroadcast]
    rw [bcd_encode_array_go_array (l.map (fun v => v / 10)).sum _ _ _ le_rfl (by simp)]
    congr 1
    rw [show (l.map (fun v => v % 10 * 1)).map (fun x => 0 + x) =
          l.map (fun v => 0 + v % 10 * 1) from by rw [List.map_map]; rfl]
    rw [show (l.map (fun v => 0 + v % 10 * 1)) = l.map (fun v => v % 10) from
          List.map_congr_left (fun v _ => by omega)]
    rw [show l.map (fun v => v / 10) = (l.map id).map (fun v => v / 10) from by simp]
    rw [show l.map (fun v => v % 10) = (l.map id).map (fun v => v % 10) from by simp,
      List.zipWith_map, List.zipWith_same, List.map_id]
    refine List.map_congr_left (fun v _ => ?_)
    rw [bcd_encode_scalar_rec v]
  · rw [dif_neg hany, if_neg hany]

theorem bcd_decode_array_go_ok (n : Nat) :
    ∀ (value bcd : List Nat) (factor : Nat) (result : List Nat),
      bcd.sum ≤ n → (∀ b ∈ bcd, BCDValid b) → result.length = bcd.length →
      bcd_decode_array_go value bcd factor result =
        .ok (List.zipWith (fun r b => r + factor * decVal b) result bcd) := by
  induction n using Nat.strong_induction_on with
  | _ n ih =>
    intro value bcd factor result hsum hvalid hlen
    rw [bcd_decode_array_go]
    by_cases hany : bcd.any (fun v => decide (0 < v)) = true
    · rw [dif_pos hany]
      have hdig : ((bcd.map (fun v => v % 16)).any (fun d => decide (9 < d))) = false := by
        rw [List.any_eq_false]
        intro d hd
        rcases List.mem_map.mp hd with ⟨b, hb, rfl⟩
        have := ((bcdValid_iff b).mp (hvalid b hb)).1
        simpa using by omega
      simp only [hdig, Bool.false_eq_true, if_false]
      have hlt : (bcd.map (fun v => v / 16)).sum < n :=
        lt_of_lt_of_le (sum_map_div_lt 16 (by omega) bcd hany) hsum
      rw [ih _ hlt value (bcd.map (fun v => v / 16)) (factor * 10)
            (List.zipWith (fun r d => r + d * factor) result (bcd.map (fun v => v % 16)))
            le_rfl
            (fun b hb => by
              rcases List.mem_map.mp hb with ⟨b', hb', rfl⟩
              exact ((bcdValid_iff b').mp (hvalid b' hb')).2)
            (by simp [hlen])]
      rw [zipWith_collapse (fun r b => r + factor * 10 * decVal b)
            (fun r d => r + d * factor) (fun v => v % 16) (fun v => v / 16) result bcd]
      congr 1
      refine zipWith_congr_fun (fun r b => ?_) result bcd
      rw [decVal_rec b]
      ring
    · rw [dif_neg hany]
      have hz : ∀ b ∈ bcd, b = 0 := by
        intro b hb
        by_contra hne
        exact hany (List.any_eq_true.mpr ⟨b, hb, by simpa using Nat.pos_of_ne_zero hne⟩)
      rw [zipWith_add_zero_of_all_zero (fun b => factor * decVal b)
            (by simp [decVal_zero]) result bcd hlen hz]

theorem zipWith_zero_decVal :
    ∀ l : List Nat,
      List.zipWith (fun r b => r + 1 * decVal b) (l.map (fun _ => 0)) l = l.map decVal := by
  intro l
  induction l with
  | nil => rfl
  | cons a t ih =>
    simp only [List.map_cons, List.zipWith_cons_cons, Nat.one_mul, Nat.zero_add] at ih ⊢
    rw [ih]

theorem bcd_decode_array_ok (l : List Nat) (h : ∀ b ∈ l, BCDValid b) :
    bcd_decode_array l = .ok (l.map decVal) := by
  rw [bcd_decode_array,
    bcd_decode_array_go_ok l.sum l l 1 (l.map fun _ => 0) le_rfl h (by simp)]
  congr 1
  exact zipWith_zero_decVal l

theorem reportOffending_eq :
    ∀ (value digit : List Nat) (i : Nat), value.length = digit.length →
      i < digit.length → 9 < digit.getD i 0 → (∀ j, j < i → digit.getD j 0 ≤ 9) →
      reportOffending value digit = value.getD i 0 := by
  intro value
  induction value with
  | nil =>
    intro digit i hlen hi _ _
    rw [List.length_nil] at hlen
    rw [← hlen] at hi
    exact absurd hi (Nat.not_lt_zero i)
  | cons v vs ih =>
    intro digit i hlen hi hgt hle
    cases digit with
    | nil => simp at hlen
    | cons d ds =>
      cases i with
      | zero =>
        have hd : 9 < d := by simpa using hgt
        simp [reportOffending, hd]
      | succ i =>
        have hd : d ≤ 9 := by simpa using hle 0 (Nat.succ_pos i)
        have hstep : reportOffending (v :: vs) (d :: ds) = reportOffending vs ds := by
          simp [reportOffending, Nat.not_lt.mpr hd]
        rw [hstep, List.getD_cons_succ,
          ih ds i (by simpa using hlen) (by simpa using hi) (by simpa using hgt)
            (fun j hj => by simpa using hle (j + 1) (Nat.succ_lt_succ hj))]

theorem bcd_decode_array_go_error :
    ∀ (k : Nat) (value bcd : List Nat) (factor : Nat) (result : List Nat) (i : Nat),
      value.length = bcd.length →
      (∀ k', k' < k → ∀ b ∈ bcd, nib k' b ≤ 9) →
      i < bcd.length → 9 < nib k (bcd.getD i 0) →
      (∀ j, j < i → nib k (bcd.getD j 0) ≤ 9) →
      bcd_decode_array_go value bcd factor result = .error (value.getD i 0) := by
  intro k
  induction k with
  | zero =>
    intro value bcd factor result i hlen hbefore hi hgt hle
    rw [bcd_decode_array_go]
    have hmem : bcd.getD i 0 ∈ bcd := by
      rw [List.getD_eq_getElem bcd 0 hi]
      exact List.getElem_mem hi
    have hany : bcd.any (fun v => decide (0 < v)) = true :=
      List.any_eq_true.mpr ⟨bcd.getD i 0, hmem,
        by simpa using pos_of_nib_gt 0 _ hgt⟩
    rw [dif_pos hany]
    have hgt0 : 9 < (bcd.map (fun v => v % 16)).getD i 0 := by
      rw [getD_map_of_lt _ bcd i hi]
      simpa [nib] using hgt
    have hdig : ((bcd.map (fun v => v % 16)).any (fun d => decide (9 < d))) = true := by
      refine List.any_eq_true.mpr ⟨(bcd.map (fun v => v % 16)).getD i 0, ?_, by simpa using hgt0⟩
      have hi' : i < (bcd.map (fun v => v % 16)).length := by simpa using hi
      rw [List.getD_eq_getElem _ 0 hi']
      exact List.getElem_mem hi'
    simp only [hdig, if_true]
    congr 1
    refine reportOffending_eq value (bcd.map (fun v => v % 16)) i (by simpa using hlen)
      (by simpa using hi) hgt0 (fun j hj => ?_)
    rw [getD_map_of_lt _ bcd j (lt_trans hj hi)]
    simpa [nib] using hle j hj
  | succ k ih =>
    intro value bcd factor result i hlen hbefore hi hgt hle
    rw [bcd_decode_array_go]
    have hmem : bcd.getD i 0 ∈ bcd := by
      rw [List.getD_eq_getElem bcd 0 hi]
      exact List.getElem_mem hi
    have hany : bcd.any (fun v => decide (0 < v)) = true :=
      List.any_eq_true.mpr ⟨bcd.getD i 0, hmem,
        by simpa using pos_of_nib_gt (k + 1) _ hgt⟩
    rw [dif_pos hany]
    have hdig : ((bcd.map (fun v => v % 16)).any (fun d => decide (9 < d))) = false := by
      rw [List.any_eq_false]
      intro d hd
      rcases List.mem_map.mp hd with ⟨b, hb, rfl⟩
      have := hbefore 0 (Nat.succ_pos k) b hb
      rw [nib] at this
      simpa using by omega
    simp only [hdig, Bool.false_eq_true, if_false]
    refine ih value (bcd.map (fun v => v / 16)) (factor * 10) _ i (by simpa using hlen)
      (fun k' hk' b hb => ?_) (by simpa using hi) ?_ (fun j hj => ?_)
    · rcases List.mem_map.mp hb with ⟨b', hb', rfl⟩
      rw [← nib_succ]
      exact hbefore (k' + 1) (Nat.succ_lt_succ hk') b' hb'
    · rw [getD_map_of_lt _ bcd i hi, ← nib_succ]
      exact hgt
    · rw [getD_map_of_lt _ bcd j (lt_trans hj hi), ← nib_succ]
      exact hle j hj

theorem bcd_decode_array_error_of_invalid (l : List Nat)
    (h : ¬ ∀ b ∈ l, BCDValid b) : ∃ e, bcd_decode_array l = .error e := by
  have hP : ∃ k, ∃ b ∈ l, 9 < nib k b := by
    push_neg at h
    rcases h with ⟨b, hb, hbv⟩
    rw [BCDValid] at hbv
    push_neg at hbv
    rcases hbv with ⟨k, hk⟩
    exact ⟨k, b, hb, hk⟩
  have hk0 : ∃ b ∈ l, 9 < nib (Nat.find hP) b := Nat.find_spec hP
  have hbefore : ∀ k', k' < Nat.find hP → ∀ b ∈ l, nib k' b ≤ 9 := by
    intro k' hk' b hb
    have hmin := Nat.find_min hP hk'
    push_neg at hmin
    exact hmin b hb
  have hQ : ∃ i, i < l.length ∧ 9 < nib (Nat.find hP) (l.getD i 0) := by
    rcases hk0 with ⟨b, hb, hgt⟩
    rcases List.mem_iff_getElem.mp hb with ⟨i, hi, rfl⟩
    exact ⟨i, hi, by rwa [List.getD_eq_getElem l 0 hi]⟩
  have hi0 := Nat.find_spec hQ
  have hle : ∀ j, j < Nat.find hQ → nib (Nat.find hP) (l.getD j 0) ≤ 9 := by
    intro j hj
    have hmin := Nat.find_min hQ hj
    push_neg at hmin
    exact hmin (lt_trans hj hi0.1)
  refine ⟨l.getD (Nat.find hQ) 0, ?_⟩
  rw [bcd_decode_array]
  exact bcd_decode_array_go_error (Nat.find hP) l l 1 _ (Nat.find hQ) rfl hbefore
    hi0.1 hi0.2 hle

/-- Claim C1: `bcd_decode(bcd_encode(n)) == n` for every non-negative integer,
on the scalar fast path, element-wise on the array path, and the two paths
implement one and the same packing of decimal digits in hexadecimal
nibbles. -/
theorem claim1_bcd_roundtrip :
    (∀ n : Nat, bcd_decode_scalar (bcd_encode_scalar n) = some n) ∧
    (∀ l : List Nat, bcd_decode_array (l.map bcd_encode_scalar) = .ok l) ∧
    (∀ l : List Nat, l.any (fun v => decide (0 < v)) = true →
      bcd_encode_array l = .array (l.map bcd_encode_scalar)) := by
  refine ⟨bcd_decode_scalar_bcd_encode_scalar, ?_, ?_⟩
  · intro l
    rw [bcd_decode_array_ok _ (fun b hb => by
      rcases List.mem_map.mp hb with ⟨n, _, rfl⟩
      exact bcdValid_bcd_encode_scalar n)]
    rw [List.map_map,
      show (decVal ∘ bcd_encode_scalar) = id from
        funext fun n => decVal_bcd_encode_scalar n,
      List.map_id]
  · intro l hl
    rw [bcd_encode_array_eq, if_pos hl]

theorem claim1_bcd_roundtrip_witness :
    bcd_decode_scalar (bcd_encode_scalar 1234) = some 1234 ∧
    bcd_decode_array ([5, 0, 987].map bcd_encode_scalar) = .ok [5, 0, 987] ∧
    bcd_encode_array [5, 0, 987] = .array ([5, 0, 987].map bcd_encode_scalar) :=
  ⟨claim1_bcd_roundtrip.1 1234, claim1_bcd_roundtrip.2.1 [5, 0, 987],
   claim1_bcd_roundtrip.2.2 [5, 0, 987] (by decide)⟩

/-- Claim C5 (amended): `bcd_decode` fails exactly when some nibble of the
input exceeds 9, on the scalar path and per-element on the array path; the
error reports the raw value of the first element (in array order) whose
offending nibble lies at the overall lowest offending nibble position — not
necessarily the first offending element of the array. -/
theorem claim5_bcd_validation :
    (∀ b : Nat, (bcd_decode_scalar b).isSome = true ↔ BCDValid b) ∧
    (∀ l : List Nat, (∃ r, bcd_decode_array l = .ok r) ↔ ∀ b ∈ l, BCDValid b) ∧
    (∀ (l : List Nat) (k i : Nat),
      (∀ k', k' < k → ∀ b ∈ l, nib k' b ≤ 9) →
      i < l.length → 9 < nib k (l.getD i 0) →
      (∀ j, j < i → nib k (l.getD j 0) ≤ 9) →
      bcd_decode_array l = .error (l.getD i 0)) := by
  refine ⟨?_, ?_, ?_⟩
  · intro b
    constructor
    · intro hs
      by_cases hall : ((Nat.digits 16 b).all (fun d => decide (d ≤ 9))) = true
      · rw [bcdValid_iff_digits]
        intro d hd
        simpa using List.all_eq_true.mp hall d hd
      · rw [bcd_decode_scalar, if_neg hall] at hs
        simp at hs
    · intro h
      rw [bcd_decode_scalar, if_pos]
      · rfl
      · rw [List.all_eq_true]
        intro d hd
        simpa using (bcdValid_iff_digits b).mp h d hd
  · intro l
    constructor
    · rintro ⟨r, hr⟩
      by_contra h
      rcases bcd_decode_array_error_of_invalid l h with ⟨e, he⟩
      rw [he] at hr
      simp at hr
    · intro h
      exact ⟨l.map decVal, bcd_decode_array_ok l h⟩
  · intro l k i h1 h2 h3 h4
    rw [bcd_decode_array]
    exact bcd_decode_array_go_error k l l 1 _ i rfl h1 h2 h3 h4

theorem claim5_bcd_validation_witness :
    ((bcd_decode_scalar 37).isSome = true ↔ BCDValid 37) ∧
    ((∃ r, bcd_decode_array [37, 25] = .ok r) ↔ ∀ b ∈ [37, 25], BCDValid b) ∧
    bcd_decode_array [161, 27] = .error ([161, 27].getD 1 0) :=
  ⟨claim5_bcd_validation.1 37, claim5_bcd_validation.2.1 [37, 25],
   claim5_bcd_validation.2.2 [161, 27] 0 1
     (fun k' hk' => absurd hk' (Nat.not_lt_zero k'))
     (by decide) (by decide)
     (fun j hj => by
       have hj0 : j = 0 := by omega
       subst hj0
       decide)⟩

/-- Claim C5 counterexample: on the array `[0xA1, 0x1B]` the code raises with
raw value `0x1B = 27` (the element whose offending nibble sits at the lowest
nibble position), although the first offending element in array order is
`0xA1 = 161`, which is itself invalid BCD. -/
theorem claim5_counterexample :
    bcd_decode_array [161, 27] = .error 27 ∧ ¬ BCDValid 161 ∧ (27 : Nat) ≠ 161 := by
  refine ⟨?_, ?_, by decide⟩
  · have h := bcd_decode_array_go_error 0 [161, 27] [161, 27] 1
      ([161, 27].map (fun _ => 0)) 1 rfl
      (fun k' hk' => absurd hk' (Nat.not_lt_zero k'))
      (by decide) (by decide)
      (fun j hj => by
        have hj0 : j = 0 := by omega
        subst hj0
        decide)
    rw [bcd_decode_array]
    simpa using h
  · intro h
    have h1 := h 1
    rw [nib] at h1
    norm_num at h1

/-- Claim C10: on an all-zero array `bcd_encode` returns the plain scalar
integer 0 (the preallocated array result is immediately overwritten by the
scalar 0 and the digit loop never runs), whereas an array with a positive
element yields an array result. -/
theorem claim10_encode_zero_scalar :
    (∀ l : List Nat, (∀ v ∈ l, v = 0) → bcd_encode_array l = .scalar 0) ∧
    (∀ l : List Nat, l.any (fun v => decide (0 < v)) = true →
      ∃ res : List Nat, bcd_encode_array l = .array res) := by
  constructor
  · intro l hz
    rw [bcd_encode_array_eq, if_neg]
    intro hany
    rcases List.any_eq_true.mp hany with ⟨v, hv, hpos⟩
    have hv0 := hz v hv
    simp only [decide_eq_true_eq] at hpos
    omega
  · intro l hl
    exact ⟨l.map bcd_encode_scalar, by rw [bcd_encode_array_eq, if_pos hl]⟩

theorem claim10_encode_zero_scalar_witness :
    bcd_encode_array [0, 0, 0] = .scalar 0 ∧
    ∃ res : List Nat, bcd_encode_array [0, 7] = .array res :=
  ⟨claim10_encode_zero_scalar.1 [0, 0, 0] (by decide),
   claim10_encode_zero_scalar.2 [0, 7] (by decide)⟩

/-! ## CRC engine (`class CRC` in `vlbi_base/utils.py`) -/

/-- `'{:b}'.format(polynomial)` as a list of bits, most significant first
(`self.pol_bin`); `'{:b}'.format(0)` is the single character `'0'`. -/
def CRC.polBin (polynomial : Nat) : List Bool :=
  if polynomial = 0 then [false]
  else ((Nat.digits 2 polynomial).reverse).map (fun d => d == 1)

/-- `len(self) = self.pol_bin.size - 1`, the check length. -/
def CRC.checkLen (polynomial : Nat) : Nat := (CRC.polBin polynomial).length - 1

/-- `stream[-n:]`, the last `n` entries of the stream. -/
def lastN {α : Type} (n : Nat) (s : List α) : List α := s.drop (s.length - n)

/-- One step `stream[i:i+pol_bin.size] ^= (pol_bin & stream[i])` of `CRC._crc`
on a boolean stream, where `(-pol_bin).astype(bool)` is `pol_bin` itself:
inside the window the entry is XORed with the polynomial bit ANDed with
`stream[i]`, outside it is unchanged. -/
def crcStepB (pol : List Bool) (s : List Bool) (i : Nat) : List Bool :=
  (List.range s.length).map (fun k =>
    if i ≤ k ∧ k < i + pol.length then
      s.getD k false ^^ (pol.getD (k - i) false && s.getD i false)
    else s.getD k false)

/-- The loop `for i in range(0, len(stream) - len(self))` of `CRC._crc` on a
boolean stream. -/
def crcRunB (pol : List Bool) (s : List Bool) : List Bool :=
  (List.range (s.length - (pol.length - 1))).foldl (crcStepB pol) s

/-- `CRC.__call__` on a boolean stream: append `len(self)` zeros, run the
division loop, and return the final `len(self)` entries. -/
def CRC.callB (polynomial : Nat) (s : List Bool) : List Bool :=
  lastN (CRC.checkLen polynomial)
    (crcRunB (CRC.polBin polynomial)
      (s ++ List.replicate (CRC.checkLen polynomial) false))

/-- `CRC.check` on a boolean stream: run the division loop on the unmodified
stream and test that the final `len(self)` entries are all zero. -/
def CRC.checkB (polynomial : Nat) (s : List Bool) : Bool :=
  (lastN (CRC.checkLen polynomial) (crcRunB (CRC.polBin polynomial) s)).all
    (fun b => b == false)

/-- One step of `CRC._crc` on a stream of `w`-bit unsigned integer words:
`pol_bin = (-self.pol_bin).astype(stream.dtype)` turns each 1 bit of the
polynomial into an all-ones `w`-bit mask and each 0 bit into the zero mask. -/
def crcStepW (w : Nat) (pol : List Bool) (s : List Nat) (i : Nat) : List Nat :=
  (List.range s.length).map (fun k =>
    if i ≤ k ∧ k < i + pol.length then
      s.getD k 0 ^^^ ((if pol.getD (k - i) false then 2 ^ w - 1 else 0) &&& s.getD i 0)
    else s.getD k 0)

/-- The division loop of `CRC._crc` on a stream of `w`-bit words. -/
def crcRunW (w : Nat) (pol : List Bool) (s : List Nat) : List Nat :=
  (List.range (s.length - (pol.length - 1))).foldl (crcStepW w pol) s

/-- `CRC.__call__` on a stream of `w`-bit words. -/
def CRC.callW (w : Nat) (polynomial : Nat) (s : List Nat) : List Nat :=
  lastN (CRC.checkLen polynomial)
    (crcRunW w (CRC.polBin polynomial)
      (s ++ List.replicate (CRC.checkLen polynomial) 0))

/-- XOR the polynomial bits into the leading window of the stream, leaving the
rest unchanged (the spec's "the polynomial is XORed into the window"). -/
def xorInto (pol : List Bool) (s : List Bool) : List Bool :=
  List.zipWith Bool.xor s (pol ++ List.replicate (s.length - pol.length) false)

theorem length_xorInto (pol s : List Bool) : (xorInto pol s).length = s.length := by
  simp only [xorInto, List.length_zipWith, List.length_append, List.length_replicate]
  omega

/-- Transcription of the spec's description of the CRC division: walk the
positions from the front; if the current bit is set, XOR the polynomial into
the window starting there; the remainder is the final `check_length` bits. -/
def polyDivRem (pol : List Bool) (s : List Bool) : List Bool :=
  if h : s.length ≤ pol.length - 1 then s
  else polyDivRem pol ((if s.getD 0 false then xorInto pol s else s).tail)
termination_by s.length
decreasing_by
  simp only [List.length_tail]
  split
  · simp only [length_xorInto]
    omega
  · omega

/-- Flip bit `k` of a boolean stream. -/
def flipAt (k : Nat) (s : List Bool) : List Bool := s.set k (!(s.getD k false))

/-- A stream that is zero except for a single set bit at position `k`. -/
def unitVec (m k : Nat) : List Bool :=
  List.replicate k false ++ true :: List.replicate (m - k - 1) false

/-! ### Pointwise toolkit for the CRC loops -/

theorem list_ext_getD {α : Type} (d : α) :
    ∀ (a b : List α), a.length = b.length →
      (∀ k, k < a.length → a.getD k d = b.getD k d) → a = b := by
  intro a
  induction a with
  | nil =>
    intro b hlen _
    cases b with
    | nil => rfl
    | cons y u => simp at hlen
  | cons x t ih =>
    intro b hlen hk
    cases b with
    | nil => simp at hlen
    | cons y u =>
      have h0 : x = y := by simpa using hk 0 (by simp)
      subst h0
      rw [ih u (by simpa using hlen)
        (fun k hk' => by simpa using hk (k + 1) (by simpa using hk'))]

theorem getD_zipWith_xor :
    ∀ (a b : List Bool), a.length = b.length → ∀ k,
      (List.zipWith Bool.xor a b).getD k false = (a.getD k false ^^ b.getD k false) := by
  intro a
  induction a with
  | nil =>
    intro b h k
    cases b with
    | nil => simp
    | cons y u => simp at h
  | cons x t ih =>
    intro b h k
    cases b with
    | nil => simp at h
    | cons y u =>
      cases k with
      | zero => simp
      | succ k => simpa using ih u (by simpa using h) k

theorem getD_replicate_self {α : Type} (d : α) :
    ∀ (m j : Nat), (List.replicate m d).getD j d = d := by
  intro m
  induction m with
  | zero => intro j; simp
  | succ m ih =>
    intro j
    cases j with
    | zero => simp [List.replicate_succ]
    | succ j => simpa [List.replicate_succ] using ih j

theorem length_crcStepB (pol s : List Bool) (i : Nat) :
    (crcStepB pol s i).length = s.length := by
  simp [crcStepB]

theorem getD_crcStepB (pol s : List Bool) (i k : Nat) (hk : k < s.length) :
    (crcStepB pol s i).getD k false =
      if i ≤ k ∧ k < i + pol.length then
        s.getD k false ^^ (pol.getD (k - i) false && s.getD i false)
      else s.getD k false := by
  rw [crcStepB, List.getD_eq_getElem _ _ (by simpa using hk)]
  simp

theorem crcStepB_id_of_not_fired (pol s : List Bool) (i : Nat)
    (h : s.getD i false = false) : crcStepB pol s i = s := by
  refine list_ext_getD false _ _ (length_crcStepB pol s i) (fun k hk => ?_)
  rw [length_crcStepB] at hk
  rw [getD_crcStepB pol s i k hk, h]
  split <;> simp

theorem crcStepB_cons_succ (pol : List Bool) (x : Bool) (s : List Bool) (i : Nat) :
    crcStepB pol (x :: s) (i + 1) = x :: crcStepB pol s i := by
  refine list_ext_getD false _ _ (by simp [length_crcStepB]) (fun k hk => ?_)
  rw [length_crcStepB] at hk
  cases k with
  | zero =>
    rw [getD_crcStepB _ _ _ 0 (by simp)]
    simp
  | succ k =>
    have hk' : k < s.length := by simpa using hk
    rw [getD_crcStepB _ _ _ (k + 1) (by simpa using hk)]
    simp only [List.getD_cons_succ]
    rw [getD_crcStepB pol s i k hk']
    have harith : k + 1 - (i + 1) = k - i := by omega
    rw [harith]
    split_ifs with h1 h2 <;> first | rfl | (exfalso; omega)

theorem getD_zipWith_xor_lt :
    ∀ (a b : List Bool) (k : Nat), k < a.length → k < b.length →
      (List.zipWith Bool.xor a b).getD k false = (a.getD k false ^^ b.getD k false) := by
  intro a
  induction a with
  | nil =>
    intro b k hk _
    simp at hk
  | cons x t ih =>
    intro b k hka hkb
    cases b with
    | nil => simp at hkb
    | cons y u =>
      cases k with
      | zero => simp
      | succ k => simpa using ih u k (by simpa using hka) (by simpa using hkb)

theorem crcStepB_zero (pol s : List Bool) :
    crcStepB pol s 0 = if s.getD 0 false then xorInto pol s else s := by
  by_cases h0 : s.getD 0 false = true
  · rw [if_pos h0]
    refine list_ext_getD false _ _
      (by rw [length_crcStepB, length_xorInto]) (fun k hk => ?_)
    rw [length_crcStepB] at hk
    rw [getD_crcStepB pol s 0 k hk, h0, xorInto,
      getD_zipWith_xor_lt s _ k hk (by simp only [List.length_append, List.length_replicate]; omega)]
    have hpad : (pol ++ List.replicate (s.length - pol.length) false).getD k false =
        if k < pol.length then pol.getD k false else false := by
      split
      · exact List.getD_append _ _ _ _ ‹_›
      · rw [List.getD_append_right _ _ _ _ (by omega)]
        exact getD_replicate_self false _ _
    rw [hpad]
    split_ifs with h1 h2
    · simp
    · exact absurd (by omega : k < pol.length) h2
    · exact absurd ⟨Nat.zero_le k, by omega⟩ h1
    · simp
  · rw [if_neg h0]
    exact crcStepB_id_of_not_fired pol s 0 (by simpa using h0)

theorem length_foldl_crcStepB (pol : List Bool) :
    ∀ (idxs : List Nat) (s : List Bool),
      (idxs.foldl (crcStepB pol) s).length = s.length := by
  intro idxs
  induction idxs with
  | nil => intro s; rfl
  | cons i t ih =>
    intro s
    rw [List.foldl_cons, ih, length_crcStepB]

theorem length_crcRunB (pol s : List Bool) : (crcRunB pol s).length = s.length :=
  length_foldl_crcStepB pol _ s

theorem foldl_crcStepB_map_succ (pol : List Bool) :
    ∀ (idxs : List Nat) (x : Bool) (s : List Bool),
      (idxs.map Nat.succ).foldl (crcStepB pol) (x :: s) =
        x :: idxs.foldl (crcStepB pol) s := by
  intro idxs
  induction idxs with
  | nil => intro x s; rfl
  | cons i t ih =>
    intro x s
    rw [List.map_cons, List.foldl_cons, List.foldl_cons]
    simp only [Nat.succ_eq_add_one]
    rw [crcStepB_cons_succ, ih]

theorem lastN_crcRunB_eq_polyDivRem (pol : List Bool) :
    ∀ (n : Nat) (s : List Bool), s.length ≤ n →
      lastN (pol.length - 1) (crcRunB pol s) = polyDivRem pol s := by
  intro n
  induction n with
  | zero =>
    intro s hs
    have hnil : s = [] := List.eq_nil_of_length_eq_zero (by omega)
    subst hnil
    rw [polyDivRem, dif_pos (by simp)]
    simp [crcRunB, lastN]
  | succ n ih =>
    intro s hs
    rw [polyDivRem]
    by_cases hbase : s.length ≤ pol.length - 1
    · rw [dif_pos hbase, crcRunB]
      have h0 : s.length - (pol.length - 1) = 0 := by omega
      rw [h0]
      simp [lastN, h0]
    · rw [dif_neg hbase]
      cases s with
      | nil => exact absurd (by simp) hbase
      | cons x t =>
        have hLt : pol.length - 1 ≤ t.length := by
          simp only [List.length_cons] at hbase
          omega
        have hcnt : (x :: t).length - (pol.length - 1) =
            (t.length - (pol.length - 1)) + 1 := by
          simp only [List.length_cons]
          omega
        rw [crcRunB, hcnt, List.range_succ_eq_map, List.foldl_cons, crcStepB_zero]
        have hulen : (if (x :: t).getD 0 false then xorInto pol (x :: t)
            else (x :: t)).length = t.length + 1 := by
          split
          · rw [length_xorInto]; rfl
          · rfl
        rcases hu : (if (x :: t).getD 0 false then xorInto pol (x :: t)
            else (x :: t)) with _ | ⟨u0, urest⟩
        · rw [hu] at hulen
          simp at hulen
        · rw [hu] at hulen
          have hurest : urest.length = t.length := by simpa using hulen
          rw [foldl_crcStepB_map_succ]
          have hfold : (List.range (t.length - (pol.length - 1))).foldl
              (crcStepB pol) urest = crcRunB pol urest := by
            rw [crcRunB, hurest]
          rw [hfold]
          have hlast : lastN (pol.length - 1) (u0 :: crcRunB pol urest) =
              lastN (pol.length - 1) (crcRunB pol urest) := by
            rw [lastN, lastN]
            have hll : (u0 :: crcRunB pol urest).length - (pol.length - 1) =
                ((crcRunB pol urest).length - (pol.length - 1)) + 1 := by
              simp only [List.length_cons, length_crcRunB, hurest]
              omega
            rw [hll, List.drop_succ_cons]
          rw [hlast, ih urest (by omega), List.tail_cons]

theorem length_crcStepW (w : Nat) (pol : List Bool) (s : List Nat) (i : Nat) :
    (crcStepW w pol s i).length = s.length := by
  simp [crcStepW]

theorem mem_crcStepW_lt (w : Nat) (pol : List Bool) (s : List Nat) (i : Nat)
    (hs : ∀ x ∈ s, x < 2 ^ w) : ∀ y ∈ crcStepW w pol s i, y < 2 ^ w := by
  intro y hy
  rw [crcStepW] at hy
  rcases List.mem_map.mp hy with ⟨k, hk, rfl⟩
  have hks : k < s.length := List.mem_range.mp hk
  have hval : s.getD k 0 < 2 ^ w := by
    rw [List.getD_eq_getElem s 0 hks]
    exact hs _ (List.getElem_mem hks)
  split
  · refine Nat.xor_lt_two_pow hval (lt_of_le_of_lt Nat.and_le_left ?_)
    split
    · have := Nat.two_pow_pos w
      omega
    · exact Nat.two_pow_pos w
  · exact hval

theorem mem_foldl_crcStepW_lt (w : Nat) (pol : List Bool) :
    ∀ (idxs : List Nat) (s : List Nat), (∀ x ∈ s, x < 2 ^ w) →
      ∀ y ∈ idxs.foldl (crcStepW w pol) s, y < 2 ^ w := by
  intro idxs
  induction idxs with
  | nil => intro s hs; exact hs
  | cons i t ih =>
    intro s hs
    rw [List.foldl_cons]
    exact ih _ (mem_crcStepW_lt w pol s i hs)

/-- Claim C2: the CRC engine call appends `check_length` zero bits and
performs binary polynomial long division, XORing the polynomial into the
window `[i, i+check_length]` at each set bit, returning the final
`check_length` bits (conjunct 1, equivalence with a direct transcription of
the spec's division); and the result has the same element width as the input
(conjunct 2). -/
theorem claim2_crc_division :
    (∀ (polynomial : Nat) (s : List Bool),
      CRC.callB polynomial s =
        polyDivRem (CRC.polBin polynomial)
          (s ++ List.replicate (CRC.checkLen polynomial) false)) ∧
    (∀ (w polynomial : Nat) (s : List Nat), (∀ x ∈ s, x < 2 ^ w) →
      ∀ y ∈ CRC.callW w polynomial s, y < 2 ^ w) := by
  constructor
  · intro p s
    rw [CRC.callB, CRC.checkLen]
    exact lastN_crcRunB_eq_polyDivRem (CRC.polBin p) _ _ le_rfl
  · intro w p s hs y hy
    rw [CRC.callW, lastN] at hy
    have hy2 := List.drop_subset _ _ hy
    refine mem_foldl_crcStepW_lt w (CRC.polBin p) _ _ ?_ y hy2
    intro x hx
    rcases List.mem_append.mp hx with hx | hx
    · exact hs x hx
    · rw [List.eq_of_mem_replicate hx]
      exact Nat.two_pow_pos w

theorem claim2_crc_division_witness :
    CRC.callB 2 [true] =
      polyDivRem (CRC.polBin 2) ([true] ++ List.replicate (CRC.checkLen 2) false) ∧
    ∀ y ∈ CRC.callW 2 3 [2, 1], y < 2 ^ 2 :=
  ⟨claim2_crc_division.1 2 [true], claim2_crc_division.2 2 3 [2, 1] (by decide)⟩

/-! ### Lane independence of the word-stream CRC -/

theorem getD_map_testBit (j : Nat) :
    ∀ (s : List Nat) (i : Nat),
      (s.map (fun x => x.testBit j)).getD i false = (s.getD i 0).testBit j := by
  intro s
  induction s with
  | nil => intro i; simp [Nat.zero_testBit]
  | cons x t ih =>
    intro i
    cases i with
    | zero => simp
    | succ i => simpa using ih i

theorem getD_crcStepW (w : Nat) (pol : List Bool) (s : List Nat) (i k : Nat)
    (hk : k < s.length) :
    (crcStepW w pol s i).getD k 0 =
      if i ≤ k ∧ k < i + pol.length then
        s.getD k 0 ^^^ ((if pol.getD (k - i) false then 2 ^ w - 1 else 0) &&& s.getD i 0)
      else s.getD k 0 := by
  rw [crcStepW, List.getD_eq_getElem _ _ (by simpa using hk)]
  simp

theorem map_testBit_crcStepW (w : Nat) (pol : List Bool) (s : List Nat) (i j : Nat)
    (hj : j < w) :
    (crcStepW w pol s i).map (fun x => x.testBit j) =
      crcStepB pol (s.map (fun x => x.testBit j)) i := by
  refine list_ext_getD false _ _ ?_ (fun k hk => ?_)
  · simp [length_crcStepB, length_crcStepW]
  · have hk' : k < s.length := by simpa [length_crcStepW] using hk
    rw [getD_map_testBit, getD_crcStepW w pol s i k hk',
      getD_crcStepB pol _ i k (by simpa using hk'), getD_map_testBit, getD_map_testBit]
    have hmask : ∀ b : Bool, ((if b then 2 ^ w - 1 else 0 : Nat).testBit j) = b := by
      intro b
      cases b
      · simp [Nat.zero_testBit]
      · simp [Nat.testBit_two_pow_sub_one, hj]
    split
    · rw [Nat.testBit_xor, Nat.testBit_and, hmask]
    · rfl

theorem map_testBit_foldl_crcStepW (w : Nat) (pol : List Bool) (j : Nat) (hj : j < w) :
    ∀ (idxs : List Nat) (s : List Nat),
      (idxs.foldl (crcStepW w pol) s).map (fun x => x.testBit j) =
        idxs.foldl (crcStepB pol) (s.map (fun x => x.testBit j)) := by
  intro idxs
  induction idxs with
  | nil => intro s; rfl
  | cons i t ih =>
    intro s
    rw [List.foldl_cons, List.foldl_cons, ih, map_testBit_crcStepW w pol s i j hj]

theorem length_crcRunW (w : Nat) (pol : List Bool) (s : List Nat) :
    (crcRunW w pol s).length = s.length := by
  rw [crcRunW]
  induction (List.range (s.length - (pol.length - 1))) generalizing s with
  | nil => rfl
  | cons i t ih => rw [List.foldl_cons, ih, length_crcStepW]

theorem map_testBit_crcRunW (w : Nat) (pol : List Bool) (j : Nat) (hj : j < w)
    (s : List Nat) :
    (crcRunW w pol s).map (fun x => x.testBit j) =
      crcRunB pol (s.map (fun x => x.testBit j)) := by
  rw [crcRunW, crcRunB, map_testBit_foldl_crcStepW w pol j hj, List.length_map]

/-- Claim C4: for any bit lane `j < w`, lane `j` of the CRC computed over a
stream of `w`-bit words equals the CRC computed over the boolean stream
formed by bit `j` of each word: the XOR-based division acts independently on
each parallel lane, with no special-casing beyond the element width. -/
theorem claim4_crc_lanes (w polynomial : Nat) (s : List Nat) (j : Nat)
    (hj : j < w) :
    (CRC.callW w polynomial s).map (fun x => x.testBit j) =
      CRC.callB polynomial (s.map (fun x => x.testBit j)) := by
  have hpad : (s ++ List.replicate (CRC.checkLen polynomial) 0).map
      (fun x : Nat => x.testBit j) =
      s.map (fun x : Nat => x.testBit j) ++
        List.replicate (CRC.checkLen polynomial) false := by
    rw [List.map_append, List.map_replicate, Nat.zero_testBit]
  rw [CRC.callW, CRC.callB, lastN, lastN, List.map_drop,
    map_testBit_crcRunW w _ j hj, hpad]
  congr 1
  rw [length_crcRunW, length_crcRunB]
  simp

theorem claim4_crc_lanes_witness :
    (CRC.callW 2 3 [2, 3, 1]).map (fun x => x.testBit 1) =
      CRC.callB 3 ([2, 3, 1].map (fun x => x.testBit 1)) :=
  claim4_crc_lanes 2 3 [2, 3, 1] 1 (by decide)

/-! ### Linearity of the CRC division loop over XOR -/

theorem zipXor_replicate_false_right :
    ∀ a : List Bool, List.zipWith Bool.xor a (List.replicate a.length false) = a := by
  intro a
  induction a with
  | nil => rfl
  | cons x t ih => simp [List.replicate_succ, ih]

theorem zipXor_replicate_false_left :
    ∀ a : List Bool, List.zipWith Bool.xor (List.replicate a.length false) a = a := by
  intro a
  induction a with
  | nil => rfl
  | cons x t ih => simp [List.replicate_succ, ih]

theorem zipXor_self :
    ∀ a : List Bool, List.zipWith Bool.xor a a = List.replicate a.length false := by
  intro a
  induction a with
  | nil => rfl
  | cons x t ih => simp [List.replicate_succ, ih]

theorem bool_xor_step (u v p x y : Bool) :
    ((u ^^ v) ^^ (p && (x ^^ y))) = ((u ^^ (p && x)) ^^ (v ^^ (p && y))) := by
  cases u <;> cases v <;> cases p <;> cases x <;> cases y <;> rfl

theorem crcStepB_zipXor (pol : List Bool) (a b : List Bool) (i : Nat)
    (hab : a.length = b.length) :
    crcStepB pol (List.zipWith Bool.xor a b) i =
      List.zipWith Bool.xor (crcStepB pol a i) (crcStepB pol b i) := by
  have hzlen : (List.zipWith Bool.xor a b).length = a.length := by
    simp [hab]
  refine list_ext_getD false _ _ ?_ (fun k hk => ?_)
  · simp [length_crcStepB, hab]
  · rw [length_crcStepB, hzlen] at hk
    rw [getD_crcStepB pol _ i k (by rw [hzlen]; exact hk)]
    rw [getD_zipWith_xor (crcStepB pol a i) (crcStepB pol b i)
      (by rw [length_crcStepB, length_crcStepB, hab]) k]
    rw [getD_crcStepB pol a i k hk, getD_crcStepB pol b i k (by omega)]
    rw [getD_zipWith_xor a b hab k, getD_zipWith_xor a b hab i]
    split_ifs
    · exact bool_xor_step _ _ _ _ _
    · rfl

theorem foldl_crcStepB_zipXor (pol : List Bool) :
    ∀ (idxs : List Nat) (a b : List Bool), a.length = b.length →
      idxs.foldl (crcStepB pol) (List.zipWith Bool.xor a b) =
        List.zipWith Bool.xor (idxs.foldl (crcStepB pol) a)
          (idxs.foldl (crcStepB pol) b) := by
  intro idxs
  induction idxs with
  | nil => intro a b _; rfl
  | cons i t ih =>
    intro a b hab
    rw [List.foldl_cons, List.foldl_cons, List.foldl_cons,
      crcStepB_zipXor pol a b i hab,
      ih _ _ (by rw [length_crcStepB, length_crcStepB, hab])]

theorem foldl_crcStepB_fixed (pol : List Bool) :
    ∀ (m : Nat) (s : List Bool), (∀ i, i < m → s.getD i false = false) →
      (List.range m).foldl (crcStepB pol) s = s := by
  intro m
  induction m with
  | zero => intro s _; rfl
  | succ m ih =>
    intro s hs
    rw [List.range_succ, List.foldl_append, List.foldl_cons, List.foldl_nil,
      ih s (fun i hi => hs i (by omega)),
      crcStepB_id_of_not_fired pol s m (hs m (by omega))]

theorem length_callB (p : Nat) (s : List Bool) :
    (CRC.callB p s).length = CRC.checkLen p := by
  rw [CRC.callB, lastN, List.length_drop, length_crcRunB]
  simp only [List.length_append, List.length_replicate]
  omega

/-- The division of a stream with a correct trailing CRC leaves an all-zero
final window. -/
theorem lastN_run_append_call (p : Nat) (s : List Bool) :
    lastN (CRC.checkLen p) (crcRunB (CRC.polBin p) (s ++ CRC.callB p s)) =
      List.replicate (CRC.checkLen p) false := by
  have hclen := length_callB p s
  have hsplit : s ++ CRC.callB p s =
      List.zipWith Bool.xor (s ++ List.replicate (CRC.checkLen p) false)
        (List.replicate s.length false ++ CRC.callB p s) := by
    rw [List.zipWith_append _ _ _ _ _ (by simp), zipXor_replicate_false_right,
      ← hclen, zipXor_replicate_false_left]
  have hlenA : (s ++ List.replicate (CRC.checkLen p) false).length =
      s.length + CRC.checkLen p := by simp
  have hlenB : (List.replicate s.length false ++ CRC.callB p s).length =
      s.length + CRC.checkLen p := by simp [hclen]
  have hrunB_fix : (List.range ((List.replicate s.length false ++
      CRC.callB p s).length - ((CRC.polBin p).length - 1))).foldl
      (crcStepB (CRC.polBin p))
      (List.replicate s.length false ++ CRC.callB p s) =
      List.replicate s.length false ++ CRC.callB p s := by
    refine foldl_crcStepB_fixed (CRC.polBin p) _ _ (fun i hi => ?_)
    rw [hlenB, CRC.checkLen] at hi
    have hi2 : i < s.length := by omega
    rw [List.getD_append _ _ _ _ (by simpa using hi2)]
    exact getD_replicate_self false _ _
  have hrun : crcRunB (CRC.polBin p) (s ++ CRC.callB p s) =
      List.zipWith Bool.xor
        (crcRunB (CRC.polBin p) (s ++ List.replicate (CRC.checkLen p) false))
        (List.replicate s.length false ++ CRC.callB p s) := by
    conv_lhs => rw [hsplit]
    simp only [crcRunB]
    rw [foldl_crcStepB_zipXor (CRC.polBin p) _ _ _ (by rw [hlenA, hlenB])]
    have hz : (List.zipWith Bool.xor (s ++ List.replicate (CRC.checkLen p) false)
        (List.replicate s.length false ++ CRC.callB p s)).length =
        (s ++ List.replicate (CRC.checkLen p) false).length := by
      simp only [List.length_zipWith, hlenA, hlenB]
      omega
    rw [hz]
    congr 1
    have hAB : (s ++ List.replicate (CRC.checkLen p) false).length =
        (List.replicate s.length false ++ CRC.callB p s).length := by
      rw [hlenA, hlenB]
    rw [hAB]
    exact hrunB_fix
  rw [hrun]
  have hul : (crcRunB (CRC.polBin p)
      (s ++ List.replicate (CRC.checkLen p) false)).length =
      s.length + CRC.checkLen p := by
    rw [length_crcRunB, hlenA]
  have hlastzip : lastN (CRC.checkLen p)
      (List.zipWith Bool.xor
        (crcRunB (CRC.polBin p) (s ++ List.replicate (CRC.checkLen p) false))
        (List.replicate s.length false ++ CRC.callB p s)) =
      List.zipWith Bool.xor
        (lastN (CRC.checkLen p)
          (crcRunB (CRC.polBin p) (s ++ List.replicate (CRC.checkLen p) false)))
        (lastN (CRC.checkLen p)
          (List.replicate s.length false ++ CRC.callB p s)) := by
    rw [lastN, lastN, lastN, List.drop_zipWith]
    have hzl2 : (List.zipWith Bool.xor
        (crcRunB (CRC.polBin p) (s ++ List.replicate (CRC.checkLen p) false))
        (List.replicate s.length false ++ CRC.callB p s)).length =
        s.length + CRC.checkLen p := by
      simp only [List.length_zipWith, hul, hlenB]
      omega
    rw [hzl2, hul, hlenB]
  rw [hlastzip]
  have h5 : lastN (CRC.checkLen p)
      (crcRunB (CRC.polBin p) (s ++ List.replicate (CRC.checkLen p) false)) =
      CRC.callB p s := rfl
  have h6 : lastN (CRC.checkLen p)
      (List.replicate s.length false ++ CRC.callB p s) = CRC.callB p s := by
    rw [lastN, hlenB]
    have hn : s.length + CRC.checkLen p - CRC.checkLen p = s.length := by omega
    rw [hn, List.drop_left' (by simp)]
  rw [h5, h6, zipXor_self, hclen]

/-- `CRC.check` of a stream that carries a correct trailing CRC. -/
theorem checkB_append_callB (p : Nat) (s : List Bool) :
    CRC.checkB p (s ++ CRC.callB p s) = true := by
  rw [CRC.checkB, lastN_run_append_call]
  simp

/-! ### Streams as polynomials over GF(2) -/

/-- The polynomial over GF(2) whose coefficients are the bits of the stream,
most significant first. -/
noncomputable def valPoly : List Bool → Polynomial (ZMod 2)
  | [] => 0
  | x :: t => (if x then Polynomial.X ^ t.length else 0) + valPoly t

theorem valPoly_nil : valPoly [] = 0 := rfl

theorem valPoly_cons (x : Bool) (t : List Bool) :
    valPoly (x :: t) = (if x then Polynomial.X ^ t.length else 0) + valPoly t := rfl

theorem valPoly_append :
    ∀ a b : List Bool,
      valPoly (a ++ b) = valPoly a * Polynomial.X ^ b.length + valPoly b := by
  intro a b
  induction a with
  | nil => simp [valPoly_nil]
  | cons x t ih =>
    rw [List.cons_append, valPoly_cons, valPoly_cons, ih]
    rw [add_mul, add_assoc]
    congr 1
    rw [List.length_append, pow_add]
    split
    · rfl
    · rw [zero_mul]

theorem valPoly_replicate_false (n : Nat) :
    valPoly (List.replicate n false) = 0 := by
  induction n with
  | zero => rfl
  | succ n ih => rw [List.replicate_succ, valPoly_cons, ih, if_neg (by simp), add_zero]

theorem valPoly_all_false (s : List Bool) (h : ∀ x ∈ s, x = false) :
    valPoly s = 0 := by
  induction s with
  | nil => rfl
  | cons x t ih =>
    rw [valPoly_cons, h x (List.mem_cons_self _ _),
      ih (fun y hy => h y (List.mem_cons_of_mem _ hy))]
    simp

theorem valPoly_zipXor :
    ∀ a b : List Bool, a.length = b.length →
      valPoly (List.zipWith Bool.xor a b) = valPoly a + valPoly b := by
  intro a
  induction a with
  | nil =>
    intro b hab
    cases b with
    | nil => simp [valPoly_nil]
    | cons y u => simp at hab
  | cons x t ih =>
    intro b hab
    cases b with
    | nil => simp at hab
    | cons y u =>
      have hlen : t.length = u.length := by simpa using hab
      rw [List.zipWith_cons_cons, valPoly_cons, valPoly_cons, valPoly_cons,
        ih u hlen]
      have hzl : (List.zipWith Bool.xor t u).length = t.length := by
        simp [hlen]
      rw [hzl, hlen]
      have hite : (if (x ^^ y) then (Polynomial.X : Polynomial (ZMod 2)) ^ u.length
          else 0) =
          (if x then (Polynomial.X : Polynomial (ZMod 2)) ^ u.length else 0) +
          (if y then (Polynomial.X : Polynomial (ZMod 2)) ^ u.length else 0) := by
        cases x <;> cases y <;> simp
        · exact (CharTwo.add_self_eq_zero _).symm
      rw [hite]
      ring

theorem getD_map_and (x : Bool) :
    ∀ (pol : List Bool) (q : Nat),
      (pol.map (fun b => b && x)).getD q false = (pol.getD q false && x) := by
  intro pol
  induction pol with
  | nil => intro q; simp
  | cons b t ih =>
    intro q
    cases q with
    | zero => simp
    | succ q => simpa using ih q

theorem crcStepB_eq_zipXor_mask (pol s : List Bool) (i : Nat)
    (hle : i + pol.length ≤ s.length) :
    crcStepB pol s i =
      List.zipWith Bool.xor s
        (List.replicate i false ++ pol.map (fun b => b && s.getD i false) ++
          List.replicate (s.length - i - pol.length) false) := by
  have hmask : (List.replicate i false ++ pol.map (fun b => b && s.getD i false) ++
      List.replicate (s.length - i - pol.length) false).length = s.length := by
    simp only [List.length_append, List.length_replicate, List.length_map]
    omega
  refine list_ext_getD false _ _ ?_ (fun k hk => ?_)
  · rw [length_crcStepB, List.length_zipWith, hmask, min_self]
  · rw [length_crcStepB] at hk
    rw [getD_crcStepB pol s i k hk, getD_zipWith_xor s _ hmask.symm k]
    have hmget : (List.replicate i false ++ pol.map (fun b => b && s.getD i false) ++
        List.replicate (s.length - i - pol.length) false).getD k false =
        if i ≤ k ∧ k < i + pol.length then (pol.getD (k - i) false && s.getD i false)
        else false := by
      by_cases h1 : k < i
      · rw [if_neg (by omega), List.append_assoc,
          List.getD_append _ _ _ _ (by simpa using h1)]
        exact getD_replicate_self false _ _
      · by_cases h2 : k < i + pol.length
        · rw [if_pos ⟨by omega, h2⟩, List.append_assoc,
            List.getD_append_right _ _ _ _ (by simpa using h1),
            List.length_replicate,
            List.getD_append _ _ _ _ (by simp only [List.length_map]; omega)]
          exact getD_map_and _ pol (k - i)
        · rw [if_neg (by omega), List.append_assoc,
            List.getD_append_right _ _ _ _ (by simpa using h1),
            List.length_replicate,
            List.getD_append_right _ _ _ _ (by simp only [List.length_map]; omega)]
          exact getD_replicate_self false _ _
    rw [hmget]
    split_ifs
    · rfl
    · simp

theorem valPoly_mask (pol : List Bool) (i r : Nat) (x : Bool) :
    valPoly (List.replicate i false ++ pol.map (fun b => b && x) ++
        List.replicate r false) =
      (if x then valPoly pol * Polynomial.X ^ r else 0) := by
  rw [valPoly_append, valPoly_append, valPoly_replicate_false, zero_mul, zero_add,
    valPoly_replicate_false, add_zero, List.length_replicate]
  cases x
  · rw [if_neg (by simp)]
    rw [show pol.map (fun b => b && false) = List.replicate pol.length false from by
      simp]
    rw [valPoly_replicate_false, zero_mul]
  · rw [if_pos rfl]
    rw [show pol.map (fun b => b && true) = pol from by simp]

theorem valPoly_crcStepB (pol s : List Bool) (i : Nat)
    (hle : i + pol.length ≤ s.length) :
    ∃ q, valPoly (crcStepB pol s i) = valPoly s + valPoly pol * q := by
  rw [crcStepB_eq_zipXor_mask pol s i hle,
    valPoly_zipXor s _ (by
      simp only [List.length_append, List.length_replicate, List.length_map]
      omega),
    valPoly_mask]
  cases s.getD i false
  · exact ⟨0, by simp⟩
  · exact ⟨Polynomial.X ^ (s.length - i - pol.length), by simp⟩

theorem valPoly_foldl_crcStepB (pol : List Bool) :
    ∀ (idxs : List Nat) (s : List Bool), (∀ i ∈ idxs, i + pol.length ≤ s.length) →
      ∃ q, valPoly (idxs.foldl (crcStepB pol) s) = valPoly s + valPoly pol * q := by
  intro idxs
  induction idxs with
  | nil => intro s _; exact ⟨0, by simp⟩
  | cons i t ih =>
    intro s hs
    rw [List.foldl_cons]
    rcases valPoly_crcStepB pol s i (hs i (List.mem_cons_self _ _)) with ⟨q0, hq0⟩
    rcases ih (crcStepB pol s i) (fun j hj => by
      rw [length_crcStepB]
      exact hs j (List.mem_cons_of_mem _ hj)) with ⟨q1, hq1⟩
    exact ⟨q0 + q1, by rw [hq1, hq0]; ring⟩

theorem valPoly_crcRunB (pol s : List Bool) :
    ∃ q, valPoly (crcRunB pol s) = valPoly s + valPoly pol * q := by
  rw [crcRunB]
  refine valPoly_foldl_crcStepB pol _ s (fun i hi => ?_)
  have := List.mem_range.mp hi
  omega

theorem foldl_crcStepB_prefix_false (pol : List Bool)
    (hpol : pol.getD 0 false = true) :
    ∀ (m : Nat) (s : List Bool), m ≤ s.length →
      ∀ i, i < m → ((List.range m).foldl (crcStepB pol) s).getD i false = false := by
  intro m
  induction m with
  | zero =>
    intro s _ i hi
    exact absurd hi (Nat.not_lt_zero i)
  | succ m ih =>
    intro s hm i hi
    have hpol_len : 0 < pol.length := by
      cases pol with
      | nil => simp at hpol
      | cons a t => simp
    rw [List.range_succ, List.foldl_append, List.foldl_cons, List.foldl_nil]
    have hlen : ((List.range m).foldl (crcStepB pol) s).length = s.length :=
      length_foldl_crcStepB pol _ s
    by_cases him : i < m
    · rw [getD_crcStepB pol _ m i (by omega), if_neg (by omega)]
      exact ih s (by omega) i him
    · have him' : i = m := by omega
      subst him'
      rw [getD_crcStepB pol _ i i (by omega), if_pos ⟨le_refl i, by omega⟩,
        Nat.sub_self, hpol, Bool.true_and, Bool.xor_self]

theorem crcRunB_prefix_false (pol : List Bool) (hpol : pol.getD 0 false = true)
    (s : List Bool) (i : Nat) (hi : i < s.length - (pol.length - 1)) :
    (crcRunB pol s).getD i false = false := by
  rw [crcRunB]
  exact foldl_crcStepB_prefix_false pol hpol _ s (by omega) i hi

theorem valPoly_coeff_ge :
    ∀ (s : List Bool) (j : Nat), s.length ≤ j → (valPoly s).coeff j = 0 := by
  intro s
  induction s with
  | nil => intro j _; simp [valPoly_nil]
  | cons x t ih =>
    intro j hj
    rw [List.length_cons] at hj
    rw [valPoly_cons, Polynomial.coeff_add, ih j (by omega), add_zero]
    split
    · rw [Polynomial.coeff_X_pow, if_neg (by omega)]
    · simp

theorem valPoly_coeff_lt :
    ∀ (s : List Bool) (j : Nat), j < s.length →
      (valPoly s).coeff j = (if s.getD (s.length - 1 - j) false then 1 else 0) := by
  intro s
  induction s with
  | nil => intro j hj; simp at hj
  | cons x t ih =>
    intro j hj
    rw [valPoly_cons, Polynomial.coeff_add]
    by_cases hjt : j < t.length
    · rw [ih j hjt]
      have h1 : ((if x then (Polynomial.X : Polynomial (ZMod 2)) ^ t.length
          else 0)).coeff j = 0 := by
        split
        · rw [Polynomial.coeff_X_pow, if_neg (by omega)]
        · simp
      rw [h1, zero_add]
      have hidx : (x :: t).length - 1 - j = (t.length - 1 - j) + 1 := by
        simp only [List.length_cons]
        omega
      rw [hidx, List.getD_cons_succ]
    · have hjt' : j = t.length := by
        rw [List.length_cons] at hj
        omega
      subst hjt'
      rw [valPoly_coeff_ge t _ le_rfl, add_zero]
      have hidx : (x :: t).length - 1 - t.length = 0 := by
        simp only [List.length_cons]
        omega
      rw [hidx]
      cases x <;> simp [Polynomial.coeff_X_pow]

theorem length_flipAt (k : Nat) (s : List Bool) : (flipAt k s).length = s.length := by
  simp [flipAt]

theorem getD_unitVec (m k i : Nat) (hk : k < m) :
    (unitVec m k).getD i false = decide (i = k) := by
  rw [unitVec]
  by_cases h1 : i < k
  · rw [List.getD_append _ _ _ _ (by simpa using h1), getD_replicate_self false k i]
    have hik : i ≠ k := by omega
    simp [hik]
  · by_cases h2 : i = k
    · subst h2
      rw [List.getD_append_right _ _ _ _ (by simp), List.length_replicate,
        Nat.sub_self]
      simp
    · rw [List.getD_append_right _ _ _ _ (by simp only [List.length_replicate]; omega),
        List.length_replicate]
      have hik : i - k = (i - k - 1) + 1 := by omega
      rw [hik, List.getD_cons_succ, getD_replicate_self false _ _]
      simp [h2]

theorem flipAt_eq_zipXor (k : Nat) (s : List Bool) (hk : k < s.length) :
    flipAt k s = List.zipWith Bool.xor s (unitVec s.length k) := by
  have hulen : (unitVec s.length k).length = s.length := by
    simp only [unitVec, List.length_append, List.length_replicate, List.length_cons]
    omega
  refine list_ext_getD false _ _ ?_ (fun i hi => ?_)
  · rw [length_flipAt, List.length_zipWith, hulen, min_self]
  · rw [length_flipAt] at hi
    rw [getD_zipWith_xor s _ hulen.symm i, getD_unitVec s.length k i hk, flipAt,
      List.getD_eq_getElem _ false (by simpa using hi), List.getElem_set]
    by_cases hik : k = i
    · subst hik
      rw [if_pos rfl]
      have hd : decide (k = k) = true := by simp
      rw [hd, Bool.xor_true]
    · rw [if_neg hik]
      have hd : decide (i = k) = false := decide_eq_false (fun h => hik h.symm)
      rw [hd, Bool.xor_false, List.getD_eq_getElem s false hi]

theorem length_unitVec (m k : Nat) (hk : k < m) : (unitVec m k).length = m := by
  simp only [unitVec, List.length_append, List.length_replicate, List.length_cons]
  omega

theorem valPoly_unitVec (m k : Nat) (hk : k < m) :
    valPoly (unitVec m k) = Polynomial.X ^ (m - 1 - k) := by
  rw [unitVec, valPoly_append, valPoly_replicate_false, zero_mul, zero_add,
    valPoly_cons, valPoly_replicate_false, add_zero, List.length_replicate,
    if_pos rfl]
  congr 1
  omega

theorem polBin_head_true (p : Nat) (hp : p ≠ 0) :
    (CRC.polBin p).getD 0 false = true := by
  rw [CRC.polBin, if_neg hp]
  have hne : Nat.digits 2 p ≠ [] := Nat.digits_ne_nil_iff_ne_zero.mpr hp
  have hlen : 0 < (Nat.digits 2 p).length := List.length_pos.mpr hne
  rw [List.getD_eq_getElem _ false (by simpa using hlen), List.getElem_map,
    List.getElem_reverse]
  have hb1 : (Nat.digits 2 p).length - 1 - 0 < (Nat.digits 2 p).length := by omega
  have hlast : (Nat.digits 2 p)[(Nat.digits 2 p).length - 1 - 0] =
      (Nat.digits 2 p).getLast hne := by
    rw [List.getLast_eq_getElem]
    congr 1
  rw [hlast]
  have hne0 : (Nat.digits 2 p).getLast hne ≠ 0 :=
    Nat.getLast_digit_ne_zero 2 hp
  have hlt : (Nat.digits 2 p).getLast hne < 2 :=
    Nat.digits_lt_base (by norm_num) (List.getLast_mem hne)
  have h1 : (Nat.digits 2 p).getLast hne = 1 := by omega
  rw [h1]
  rfl

theorem zmod2_eq_one (r : ZMod 2) (h : r ≠ 0) : r = 1 := by
  revert h
  revert r
  decide

theorem eq_X_pow_of_dvd_X_pow (a : Polynomial (ZMod 2)) (e : Nat)
    (h : a ∣ Polynomial.X ^ e) : ∃ i, a = Polynomial.X ^ i := by
  rcases (dvd_prime_pow Polynomial.prime_X e).mp h with ⟨i, _, hassoc⟩
  rcases hassoc with ⟨u, hu⟩
  rcases Polynomial.isUnit_iff.mp u.isUnit with ⟨r, hr, hCr⟩
  have hr1 : r = 1 := zmod2_eq_one r (IsUnit.ne_zero hr)
  refine ⟨i, ?_⟩
  rw [← hu, ← hCr, hr1]
  simp

theorem crcRunB_all_false_of_lastN (p : Nat)
    (hp0 : (CRC.polBin p).getD 0 false = true) (t : List Bool)
    (hlast : ∀ x ∈ lastN (CRC.checkLen p) (crcRunB (CRC.polBin p) t), x = false) :
    ∀ x ∈ crcRunB (CRC.polBin p) t, x = false := by
  intro x hx
  rcases List.mem_iff_getElem.mp hx with ⟨i, hi, rfl⟩
  have hi' : i < t.length := by
    rw [length_crcRunB] at hi
    exact hi
  by_cases him : i < t.length - ((CRC.polBin p).length - 1)
  · have hpre := crcRunB_prefix_false (CRC.polBin p) hp0 t i him
    rw [List.getD_eq_getElem _ false hi] at hpre
    exact hpre
  · have hCL : CRC.checkLen p = (CRC.polBin p).length - 1 := rfl
    refine hlast _ ?_
    rw [lastN, length_crcRunB, hCL]
    have hb2 : i - (t.length - ((CRC.polBin p).length - 1)) <
        ((crcRunB (CRC.polBin p) t).drop
          (t.length - ((CRC.polBin p).length - 1))).length := by
      rw [List.length_drop, length_crcRunB]
      omega
    have hrw : (crcRunB (CRC.polBin p) t)[i] =
        ((crcRunB (CRC.polBin p) t).drop
          (t.length - ((CRC.polBin p).length - 1)))[i -
            (t.length - ((CRC.polBin p).length - 1))] := by
      rw [List.getElem_drop]
      congr 1
      omega
    rw [hrw]
    exact List.getElem_mem _

theorem checkB_flipAt_false (p : Nat) (s : List Bool) (k : Nat)
    (htwo : ∃ i j, i < j ∧ j < (CRC.polBin p).length ∧
      (CRC.polBin p).getD i false = true ∧ (CRC.polBin p).getD j false = true)
    (hk : k < s.length + CRC.checkLen p) :
    CRC.checkB p (flipAt k (s ++ CRC.callB p s)) = false := by
  have hp : p ≠ 0 := by
    rintro rfl
    rcases htwo with ⟨i, j, hij, hjlen, _, _⟩
    rw [CRC.polBin, if_pos rfl] at hjlen
    simp at hjlen
    omega
  have hp0 := polBin_head_true p hp
  have htlen : (s ++ CRC.callB p s).length = s.length + CRC.checkLen p := by
    rw [List.length_append, length_callB]
  by_contra hcheck
  have hcheck' : CRC.checkB p (flipAt k (s ++ CRC.callB p s)) = true := by
    cases hchk : CRC.checkB p (flipAt k (s ++ CRC.callB p s))
    · exact absurd hchk hcheck
    · rfl
  have hlast' : ∀ x ∈ lastN (CRC.checkLen p)
      (crcRunB (CRC.polBin p) (flipAt k (s ++ CRC.callB p s))), x = false := by
    rw [CRC.checkB] at hcheck'
    intro x hx
    simpa using List.all_eq_true.mp hcheck' x hx
  have hall' := crcRunB_all_false_of_lastN p hp0 _ hlast'
  have hlast0 : ∀ x ∈ lastN (CRC.checkLen p)
      (crcRunB (CRC.polBin p) (s ++ CRC.callB p s)), x = false := by
    rw [lastN_run_append_call]
    intro x hx
    exact List.eq_of_mem_replicate hx
  have hall0 := crcRunB_all_false_of_lastN p hp0 _ hlast0
  rcases valPoly_crcRunB (CRC.polBin p) (s ++ CRC.callB p s) with ⟨q0, hq0⟩
  rcases valPoly_crcRunB (CRC.polBin p) (flipAt k (s ++ CRC.callB p s)) with ⟨q1, hq1⟩
  have hku : k < (s ++ CRC.callB p s).length := by
    rw [htlen]
    exact hk
  rw [valPoly_all_false _ hall0] at hq0
  rw [valPoly_all_false _ hall',
    flipAt_eq_zipXor k (s ++ CRC.callB p s) hku,
    valPoly_zipXor (s ++ CRC.callB p s) _
      (length_unitVec (s ++ CRC.callB p s).length k hku).symm,
    valPoly_unitVec (s ++ CRC.callB p s).length k hku] at hq1
  have hvt : valPoly (s ++ CRC.callB p s) = valPoly (CRC.polBin p) * q0 := by
    have h := hq0.symm
    rw [add_eq_zero_iff_eq_neg, CharTwo.neg_eq] at h
    exact h
  have h1 : valPoly (s ++ CRC.callB p s) +
      Polynomial.X ^ ((s ++ CRC.callB p s).length - 1 - k) =
      valPoly (CRC.polBin p) * q1 := by
    have h := hq1.symm
    rw [add_eq_zero_iff_eq_neg, CharTwo.neg_eq] at h
    exact h
  have h2 : (Polynomial.X : Polynomial (ZMod 2)) ^
      ((s ++ CRC.callB p s).length - 1 - k) =
      valPoly (s ++ CRC.callB p s) + valPoly (CRC.polBin p) * q1 := by
    have h := congrArg (fun z => valPoly (s ++ CRC.callB p s) + z) h1
    simp only at h
    rw [← add_assoc, CharTwo.add_self_eq_zero, zero_add] at h
    exact h
  have hXe : (Polynomial.X : Polynomial (ZMod 2)) ^
      ((s ++ CRC.callB p s).length - 1 - k) =
      valPoly (CRC.polBin p) * (q0 + q1) := by
    rw [h2, hvt, mul_add]
  have hdvd : valPoly (CRC.polBin p) ∣
      (Polynomial.X : Polynomial (ZMod 2)) ^
        ((s ++ CRC.callB p s).length - 1 - k) := ⟨q0 + q1, hXe⟩
  rcases eq_X_pow_of_dvd_X_pow _ _ hdvd with ⟨i0, hXi⟩
  rcases htwo with ⟨i1, j1, hij, hjlen, hti, htj⟩
  have hilen : i1 < (CRC.polBin p).length := lt_trans hij hjlen
  have hc1 : (valPoly (CRC.polBin p)).coeff ((CRC.polBin p).length - 1 - i1) = 1 := by
    rw [valPoly_coeff_lt (CRC.polBin p) _ (by omega)]
    have hidx : (CRC.polBin p).length - 1 - ((CRC.polBin p).length - 1 - i1) = i1 := by
      omega
    rw [hidx, hti, if_pos rfl]
  have hc2 : (valPoly (CRC.polBin p)).coeff ((CRC.polBin p).length - 1 - j1) = 1 := by
    rw [valPoly_coeff_lt (CRC.polBin p) _ (by omega)]
    have hidx : (CRC.polBin p).length - 1 - ((CRC.polBin p).length - 1 - j1) = j1 := by
      omega
    rw [hidx, htj, if_pos rfl]
  rw [hXi, Polynomial.coeff_X_pow] at hc1 hc2
  have he1 : (CRC.polBin p).length - 1 - i1 = i0 := by
    by_contra hne
    rw [if_neg hne] at hc1
    exact absurd hc1 (by decide)
  have he2 : (CRC.polBin p).length - 1 - j1 = i0 := by
    by_contra hne
    rw [if_neg hne] at hc2
    exact absurd hc2 (by decide)
  omega

/-- Claim C3 (amended): a stream that ends in the correct CRC remainder of
its preceding bits always passes `CRC.check`; and, provided the polynomial's
binary bit pattern has at least two 1 bits (that is, the polynomial is not a
pure power of two), flipping any single bit of such a valid stream makes
`CRC.check` return false.  A power-of-two polynomial does not detect all
single-bit flips. -/
theorem claim3_crc_check_flip :
    (∀ (polynomial : Nat) (s : List Bool),
      CRC.checkB polynomial (s ++ CRC.callB polynomial s) = true) ∧
    (∀ (polynomial : Nat) (s : List Bool) (k : Nat),
      (∃ i j, i < j ∧ j < (CRC.polBin polynomial).length ∧
        (CRC.polBin polynomial).getD i false = true ∧
        (CRC.polBin polynomial).getD j false = true) →
      k < s.length + CRC.checkLen polynomial →
      CRC.checkB polynomial (flipAt k (s ++ CRC.callB polynomial s)) = false) :=
  ⟨checkB_append_callB, checkB_flipAt_false⟩

theorem polBin_two : CRC.polBin 2 = [true, false] := by
  rw [CRC.polBin, if_neg (by norm_num)]
  simp

theorem polBin_three : CRC.polBin 3 = [true, true] := by
  rw [CRC.polBin, if_neg (by norm_num)]
  simp

theorem claim3_crc_check_flip_witness :
    CRC.checkB 3 ([true] ++ CRC.callB 3 [true]) = true ∧
    CRC.checkB 3 (flipAt 0 ([true] ++ CRC.callB 3 [true])) = false :=
  ⟨claim3_crc_check_flip.1 3 [true],
   claim3_crc_check_flip.2 3 [true] 0
     ⟨0, 1, by omega, by rw [polBin_three]; decide, by rw [polBin_three]; decide,
       by rw [polBin_three]; decide⟩
     (by rw [CRC.checkLen, polBin_three]; decide)⟩

/-- Claim C3 counterexample: with the power-of-two polynomial 2 (the
polynomial x), the stream `[true] ++ crc([true])` carries a correct trailing
CRC, yet flipping its bit 0 still passes the check, so a single bit flip is
not always detected. -/
theorem claim3_counterexample :
    CRC.checkB 2 ([true] ++ CRC.callB 2 [true]) = true ∧
    CRC.checkB 2 (flipAt 0 ([true] ++ CRC.callB 2 [true])) = true := by
  constructor <;>
    · simp only [CRC.checkB, CRC.callB, CRC.checkLen, polBin_two]
      decide

/-! ## Spec-modelled Mark5B layer

The Mark5B header/payload/frame/stream implementation is not among the
visible sources (only its test suite is), so this layer is modelled from the
specification text. -/

/-- Modelled from the spec: the missing Mark5B header code disambiguates the
cyclic day counter by choosing, among the epoch candidates spaced by the wrap
period, the one whose resulting timestamp is closest to the caller-supplied
reference, ties resolved toward the earlier epoch; with candidates
`m * wrap + jday` this choice is `m = ⌈(ref - jday)/wrap - 1/2⌉`. -/
def resolveKday (wrap : ℕ) (jday : ℕ) (ref : ℚ) : ℤ :=
  ⌈(ref - jday) / wrap - 1 / 2⌉ * wrap

/-- Modelled from the spec: the absolute timestamp decoded from the BCD
day-of-year `jday` and the (fixed) seconds-plus-fraction of day `frac`,
disambiguated by the reference epoch `ref`. -/
def headerTime (wrap : ℕ) (jday : ℕ) (frac : ℚ) (ref : ℚ) : ℚ :=
  (resolveKday wrap jday ref : ℚ) + jday + frac

theorem one_le_abs_intCast_sub (a b : ℤ) (h : a ≠ b) : 1 ≤ |(a : ℚ) - b| := by
  have h1 : 1 ≤ |a - b| := Int.one_le_abs (by omega)
  have h2 : ((1 : ℤ) : ℚ) ≤ ((|a - b| : ℤ) : ℚ) := Int.cast_le.mpr h1
  push_cast at h2
  simpa using h2

/-- The closed form in `resolveKday` implements the spec's disambiguation
rule: it picks the candidate closest to the reference, ties resolved toward
the earlier epoch. -/
theorem resolveKday_closest (wrap : ℕ) (hw : 0 < wrap) (jday : ℕ) (ref : ℚ) :
    ∃ m : ℤ, resolveKday wrap jday ref = m * wrap ∧
      (∀ m' : ℤ, |(m : ℚ) * wrap + jday - ref| ≤ |(m' : ℚ) * wrap + jday - ref|) ∧
      (∀ m' : ℤ, |(m' : ℚ) * wrap + jday - ref| = |(m : ℚ) * wrap + jday - ref| →
        m ≤ m') := by
  have hw0 : (0 : ℚ) < wrap := by exact_mod_cast hw
  have hwne : (wrap : ℚ) ≠ 0 := ne_of_gt hw0
  set d : ℚ := (ref - jday) / wrap with hd
  have hdw : d * wrap = ref - jday := by
    rw [hd]
    field_simp
  set m : ℤ := ⌈d - 1 / 2⌉ with hm
  have hub : (m : ℚ) < d + 1 / 2 := by
    have := Int.ceil_lt_add_one (d - 1 / 2)
    rw [← hm] at this
    linarith
  have hlb : d - 1 / 2 ≤ (m : ℚ) := by
    have := Int.le_ceil (d - 1 / 2)
    rw [← hm] at this
    linarith
  have hdist : ∀ m' : ℤ, |(m' : ℚ) * wrap + jday - ref| = |(m' : ℚ) - d| * wrap := by
    intro m'
    have hval : (m' : ℚ) * wrap + jday - ref = ((m' : ℚ) - d) * wrap := by
      rw [sub_mul, hdw]
      ring
    rw [hval, abs_mul, abs_of_pos hw0]
  have habs_m : |(m : ℚ) - d| ≤ 1 / 2 := by
    rw [abs_le]
    constructor <;> linarith
  refine ⟨m, rfl, fun m' => ?_, fun m' hm' => ?_⟩
  · rw [hdist, hdist]
    by_cases hmm : m' = m
    · subst hmm
      exact le_refl _
    · have h1 : 1 ≤ |(m' : ℚ) - m| := one_le_abs_intCast_sub m' m hmm
      have h2 : |(m' : ℚ) - m| ≤ |(m' : ℚ) - d| + |(m : ℚ) - d| := by
        have := abs_sub_le ((m' : ℚ)) d ((m : ℚ))
        rw [abs_sub_comm d (m : ℚ)] at this
        exact this
      have h3 : 1 / 2 ≤ |(m' : ℚ) - d| := by linarith
      have h4 : |(m : ℚ) - d| ≤ |(m' : ℚ) - d| := by linarith
      exact mul_le_mul_of_nonneg_right h4 (le_of_lt hw0)
  · rw [hdist, hdist] at hm'
    have heq : |(m' : ℚ) - d| = |(m : ℚ) - d| :=
      mul_right_cancel₀ hwne hm'
    by_contra hlt
    push_neg at hlt
    have hm'le : m' ≤ m - 1 := by omega
    have hm'q : (m' : ℚ) ≤ (m : ℚ) - 1 := by exact_mod_cast hm'le
    have h5 : (m' : ℚ) - d < -(1 / 2) := by linarith
    have h6 : 1 / 2 < |(m' : ℚ) - d| := by
      rw [abs_sub_comm]
      rw [abs_of_pos (by linarith)]
      linarith
    linarith [habs_m, heq.symm.le, h6]

/-- Claim C6 (amended): two reference epochs that both lie strictly within
half the wrap period (500 days for Mark5B's 1000-day day counter) of the
same candidate timestamp resolve the same BCD time fields to the same
absolute timestamp.  (Being within half the wrap period of each other is not
enough; see the counterexample.) -/
theorem claim6_ref_epoch (jday : ℕ) (frac : ℚ) (m : ℤ) (r1 r2 : ℚ)
    (h1 : |r1 - (1000 * (m : ℚ) + jday)| < 500)
    (h2 : |r2 - (1000 * (m : ℚ) + jday)| < 500) :
    headerTime 1000 jday frac r1 = headerTime 1000 jday frac r2 := by
  have key : ∀ r : ℚ, |r - (1000 * (m : ℚ) + jday)| < 500 →
      resolveKday 1000 jday r = m * 1000 := by
    intro r hr
    rw [resolveKday]
    congr 1
    rw [Int.ceil_eq_iff]
    rw [abs_lt] at hr
    have hq : (r - (jday : ℚ)) = 1000 * ((r - jday) / 1000) := by
      field_simp
    constructor
    · push_cast
      nlinarith [hr.1, hr.2, hq]
    · push_cast
      nlinarith [hr.1, hr.2, hq]
  rw [headerTime, headerTime, key r1 h1, key r2 h2]

theorem claim6_ref_epoch_witness :
    headerTime 1000 821 0 56809 = headerTime 1000 821 0 56509 :=
  claim6_ref_epoch 821 0 56 56809 56509
    (by rw [abs_lt]; constructor <;> (push_cast; norm_num))
    (by rw [abs_lt]; constructor <;> (push_cast; norm_num))

/-- Claim C6 counterexample: with day-of-year 0, the reference epochs 100 and
599 lie within 499 < 500 days of each other, yet resolve the same BCD time
fields to different absolute timestamps (0 versus 1000). -/
theorem claim6_counterexample :
    |(100 : ℚ) - 599| < 500 ∧
    headerTime 1000 0 0 100 = 0 ∧ headerTime 1000 0 0 599 = 1000 := by
  refine ⟨by norm_num, ?_, ?_⟩
  · norm_num [headerTime, resolveKday, Int.ceil_eq_iff]
  · norm_num [headerTime, resolveKday, Int.ceil_eq_iff]

/-- Modelled from the spec: the four-level 2-bit quantization alphabet of the
missing Mark5B payload codec, indexed by 2-bit code; `OPT` is the fixed
optimal-reconstruction magnitude.  The table maps code 0 to -OPT, 1 to +1,
2 to -1 and 3 to +OPT (matching `lut2bit[0] = -OPT`, `lut2bit[0x55] = +1`,
`lut2bit[0xaa] = -1`, `lut2bit[0xff] = +OPT` in the tests). -/
def lut2level (OPT : ℚ) : ℕ → ℚ
  | 0 => -OPT
  | 1 => 1
  | 2 => -1
  | _ => OPT

/-- Modelled from the spec: inverse quantization maps a real sample to the
2-bit code of the nearest of the four code points -OPT < -1 < +1 < +OPT,
with thresholds at the midpoints. -/
def encode2bit (OPT : ℚ) (x : ℚ) : ℕ :=
  if x ≤ -(OPT + 1) / 2 then 0
  else if x < 0 then 2
  else if x < (OPT + 1) / 2 then 1
  else 3

/-- Modelled from the spec: decode one 32-bit payload word into its sixteen
2-bit samples, least significant bit pair first. -/
def decodeWord2bit (OPT : ℚ) (w : ℕ) : List ℚ :=
  (List.range 16).map (fun i => lut2level OPT (w / 4 ^ i % 4))

/-- Modelled from the spec: pack sixteen 2-bit codes into one payload word,
least significant pair first. -/
def encodeWord2bit (OPT : ℚ) (xs : List ℚ) : ℕ :=
  Nat.ofDigits 4 (xs.map (encode2bit OPT))

/-- Modelled from the spec: decode a 2-bit Mark5B payload word by word. -/
def decodePayload (OPT : ℚ) (ws : List ℕ) : List ℚ :=
  (ws.map (decodeWord2bit OPT)).join

/-- Modelled from the spec: encode a sample array into payload words; the
payload geometry requires whole 16-sample words. -/
def encodePayload (OPT : ℚ) (xs : List ℚ) : Option (List ℕ) :=
  if xs = [] then some []
  else if h16 : 16 ≤ xs.length then
    (encodePayload OPT (xs.drop 16)).map
      (fun ws => encodeWord2bit OPT (xs.take 16) :: ws)
  else none
termination_by xs.length
decreasing_by
  rw [List.length_drop]
  omega

theorem encode2bit_lt_four (OPT : ℚ) (x : ℚ) : encode2bit OPT x < 4 := by
  rw [encode2bit]
  split_ifs <;> omega

theorem lut2level_encode2bit (OPT : ℚ) (hOPT : 1 < OPT) (x : ℚ)
    (hx : x = -OPT ∨ x = -1 ∨ x = 1 ∨ x = OPT) :
    lut2level OPT (encode2bit OPT x) = x := by
  rcases hx with rfl | rfl | rfl | rfl
  · rw [encode2bit, if_pos (by linarith)]
    rfl
  · rw [encode2bit, if_neg (by intro h; nlinarith), if_pos (by norm_num)]
    rfl
  · rw [encode2bit, if_neg (by intro h; nlinarith), if_neg (by norm_num),
      if_pos (by linarith)]
    rfl
  · rw [encode2bit, if_neg (by intro h; nlinarith), if_neg (by intro h; nlinarith),
      if_neg (by intro h; nlinarith)]
    rfl

theorem ofDigits4_digit :
    ∀ (cs : List ℕ) (i : Nat), (∀ c ∈ cs, c < 4) → i < cs.length →
      Nat.ofDigits 4 cs / 4 ^ i % 4 = cs.getD i 0 := by
  intro cs
  induction cs with
  | nil =>
    intro i _ hi
    simp at hi
  | cons c t ih =>
    intro i hc hi
    have hc4 : c < 4 := hc c (List.mem_cons_self _ _)
    rw [Nat.ofDigits_cons]
    cases i with
    | zero =>
      rw [pow_zero, Nat.div_one, List.getD_cons_zero]
      have : (c + 4 * Nat.ofDigits 4 t) % 4 = c % 4 := by
        exact Nat.add_mul_mod_self_left c 4 (Nat.ofDigits 4 t)
      rw [this, Nat.mod_eq_of_lt hc4]
    | succ i =>
      rw [List.getD_cons_succ]
      have h1 : (c + 4 * Nat.ofDigits 4 t) / 4 = Nat.ofDigits 4 t := by
        rw [Nat.add_mul_div_left c _ (by norm_num : (0:ℕ) < 4),
          Nat.div_eq_of_lt hc4, Nat.zero_add]
      rw [pow_succ' 4 i, ← Nat.div_div_eq_div_mul, h1]
      exact ih i (fun d hd => hc d (List.mem_cons_of_mem _ hd)) (by simpa using hi)

theorem range_map_getD {α : Type} (d : α) :
    ∀ xs : List α, (List.range xs.length).map (fun i => xs.getD i d) = xs := by
  intro xs
  refine List.ext_getElem (by simp) (fun i h1 h2 => ?_)
  simp [List.getD_eq_getElem xs d h2, List.getElem?_eq_getElem h2]

theorem decodeWord2bit_encodeWord2bit (OPT : ℚ) (hOPT : 1 < OPT) (xs : List ℚ)
    (hlen : xs.length = 16)
    (halph : ∀ x ∈ xs, x = -OPT ∨ x = -1 ∨ x = 1 ∨ x = OPT) :
    decodeWord2bit OPT (encodeWord2bit OPT xs) = xs := by
  rw [decodeWord2bit, encodeWord2bit]
  have hdig : ∀ i, i < 16 →
      Nat.ofDigits 4 (xs.map (encode2bit OPT)) / 4 ^ i % 4 =
        encode2bit OPT (xs.getD i 0) := by
    intro i hi
    rw [ofDigits4_digit (xs.map (encode2bit OPT)) i
      (fun c hc => by
        rcases List.mem_map.mp hc with ⟨x, _, rfl⟩
        exact encode2bit_lt_four OPT x)
      (by rw [List.length_map, hlen]; exact hi)]
    rw [List.getD_eq_getElem _ _ (by rw [List.length_map, hlen]; exact hi),
      List.getElem_map, List.getD_eq_getElem _ _ (by rw [hlen]; exact hi)]
  have hmapc : (List.range 16).map
      (fun i => lut2level OPT (Nat.ofDigits 4 (xs.map (encode2bit OPT)) / 4 ^ i % 4)) =
      (List.range 16).map (fun i => xs.getD i 0) := by
    refine List.map_congr_left (fun i hi => ?_)
    have hi16 := List.mem_range.mp hi
    have halphi : xs.getD i 0 = -OPT ∨ xs.getD i 0 = -1 ∨ xs.getD i 0 = 1 ∨
        xs.getD i 0 = OPT := by
      refine halph _ ?_
      rw [List.getD_eq_getElem _ _ (by rw [hlen]; exact hi16)]
      exact List.getElem_mem _
    rw [hdig i hi16, lut2level_encode2bit OPT hOPT _ halphi]
  rw [hmapc, ← hlen, range_map_getD]

theorem encodePayload_roundtrip_aux (OPT : ℚ) (hOPT : 1 < OPT) :
    ∀ (n : Nat) (xs : List ℚ), xs.length ≤ n →
      (∀ x ∈ xs, x = -OPT ∨ x = -1 ∨ x = 1 ∨ x = OPT) → 16 ∣ xs.length →
      ∃ ws, encodePayload OPT xs = some ws ∧ decodePayload OPT ws = xs := by
  intro n
  induction n using Nat.strong_induction_on with
  | _ n ih =>
    intro xs hlen halph hdvd
    by_cases hnil : xs = []
    · subst hnil
      refine ⟨[], ?_, rfl⟩
      rw [encodePayload, if_pos rfl]
    · have h16 : 16 ≤ xs.length := by
        rcases hdvd with ⟨c, hc⟩
        rcases Nat.eq_zero_or_pos c with rfl | hcpos
        · rw [Nat.mul_zero] at hc
          exact absurd (List.eq_nil_of_length_eq_zero hc) hnil
        · omega
      rcases ih (xs.length - 16) (by omega) (xs.drop 16) (by simp)
        (fun x hx => halph x (List.drop_subset _ _ hx))
        (by
          rw [List.length_drop]
          exact Nat.dvd_sub' hdvd (dvd_refl 16))
        with ⟨ws', h1, h2⟩
      refine ⟨encodeWord2bit OPT (xs.take 16) :: ws', ?_, ?_⟩
      · rw [encodePayload, if_neg hnil, dif_pos h16, h1]
        rfl
      · rw [decodePayload] at h2 ⊢
        have hjoin : ∀ (a : List ℚ) (l : List (List ℚ)),
            (a :: l).join = a ++ l.join := fun a l => rfl
        rw [List.map_cons, hjoin,
          decodeWord2bit_encodeWord2bit OPT hOPT (xs.take 16)
            (by rw [List.length_take]; omega)
            (fun x hx => halph x (List.take_subset _ _ hx)),
          h2]
        exact List.take_append_drop 16 xs

/-- Claim C7: for a sample array all of whose values lie exactly in the 2-bit
quantization alphabet -OPT, -1, +1, +OPT (and whose length fills whole
payload words), encoding the payload and decoding it back returns the array
exactly. -/
theorem claim7_payload_roundtrip (OPT : ℚ) (hOPT : 1 < OPT) (xs : List ℚ)
    (halph : ∀ x ∈ xs, x = -OPT ∨ x = -1 ∨ x = 1 ∨ x = OPT)
    (hdvd : 16 ∣ xs.length) :
    ∃ ws, encodePayload OPT xs = some ws ∧ decodePayload OPT ws = xs :=
  encodePayload_roundtrip_aux OPT hOPT xs.length xs le_rfl halph hdvd

theorem claim7_payload_roundtrip_witness :
    ∃ ws, encodePayload 3 (List.replicate 16 1) = some ws ∧
      decodePayload 3 ws = List.replicate 16 1 :=
  claim7_payload_roundtrip 3 (by norm_num) (List.replicate 16 1)
    (fun x hx => by
      rw [List.eq_of_mem_replicate hx]
      right
      right
      left
      rfl)
    (by simp)

/-- Modelled from the spec: a Mark5B frame is a header, payload words and a
validity flag. -/
structure Mark5BFrame where
  headerWords : List Nat
  payloadWords : List Nat
  valid : Bool

/-- Modelled from the spec: the fixed sentinel word pattern written as the
payload of an invalid Mark5B frame. -/
def invalidPayloadWord : Nat := 0x11223344

/-- Modelled from the spec: the frame's `data` property returns an all-zero
array of the declared shape (16 two-bit samples per payload word) without
decoding the payload when the frame is invalid, and decodes the payload
otherwise. -/
def Mark5BFrame.data (OPT : ℚ) (f : Mark5BFrame) : List ℚ :=
  if f.valid then decodePayload OPT f.payloadWords
  else List.replicate (16 * f.payloadWords.length) 0

/-- Modelled from the spec: construct a frame from a sample array; for an
invalid frame every payload word is set to the sentinel pattern instead of
the encoded samples. -/
def Mark5BFrame.fromdata (OPT : ℚ) (hdr : List Nat) (xs : List ℚ)
    (valid : Bool) : Option Mark5BFrame :=
  (encodePayload OPT xs).map (fun ws =>
    { headerWords := hdr
      payloadWords :=
        if valid then ws else List.replicate ws.length invalidPayloadWord
      valid := valid })

theorem length_decodeWord2bit (OPT : ℚ) (w : Nat) :
    (decodeWord2bit OPT w).length = 16 := by
  simp [decodeWord2bit]

theorem length_decodePayload (OPT : ℚ) :
    ∀ ws : List Nat, (decodePayload OPT ws).length = 16 * ws.length := by
  intro ws
  induction ws with
  | nil => rfl
  | cons w t ih =>
    rw [decodePayload, List.map_cons]
    have hjoin : ∀ (a : List ℚ) (l : List (List ℚ)),
        (a :: l).join = a ++ l.join := fun a l => rfl
    rw [hjoin, List.length_append, length_decodeWord2bit]
    rw [decodePayload] at ih
    rw [ih, List.length_cons]
    ring

/-- Claim C8: an invalid frame's `data` is an all-zero array of the declared
shape regardless of the payload bits (and `data` always has the declared
shape); constructing an invalid frame from a sample array produces payload
words that all equal the sentinel pattern 0x11223344, which is not the
zeroed logical value. -/
theorem claim8_invalid_frame :
    (∀ (OPT : ℚ) (f : Mark5BFrame), f.valid = false →
      Mark5BFrame.data OPT f = List.replicate (16 * f.payloadWords.length) 0) ∧
    (∀ (OPT : ℚ) (f : Mark5BFrame),
      (Mark5BFrame.data OPT f).length = 16 * f.payloadWords.length) ∧
    (∀ (OPT : ℚ) (hdr : List Nat) (xs : List ℚ) (f : Mark5BFrame),
      Mark5BFrame.fromdata OPT hdr xs false = some f →
      ∀ w ∈ f.payloadWords, w = invalidPayloadWord) ∧
    invalidPayloadWord ≠ 0 := by
  refine ⟨?_, ?_, ?_, by norm_num [invalidPayloadWord]⟩
  · intro OPT f hf
    rw [Mark5BFrame.data, hf]
    rfl
  · intro OPT f
    rw [Mark5BFrame.data]
    split
    · exact length_decodePayload OPT f.payloadWords
    · exact List.length_replicate _ _
  · intro OPT hdr xs f hsome w hw
    rw [Mark5BFrame.fromdata] at hsome
    rcases hws : encodePayload OPT xs with _ | ws
    · rw [hws] at hsome
      simp at hsome
    · rw [hws] at hsome
      have hsome2 : some
          (⟨hdr, List.replicate ws.length invalidPayloadWord, false⟩ : Mark5BFrame) =
          some f := hsome
      have hf := Option.some.inj hsome2
      rw [← hf] at hw
      exact List.eq_of_mem_replicate hw

theorem claim8_invalid_frame_witness :
    Mark5BFrame.data 3 ⟨[], [7], false⟩ = List.replicate 16 0 ∧
    (Mark5BFrame.data 3 ⟨[], [7], true⟩).length = 16 ∧
    (∀ w ∈ (⟨[], [], false⟩ : Mark5BFrame).payloadWords, w = invalidPayloadWord) ∧
    invalidPayloadWord ≠ 0 :=
  ⟨claim8_invalid_frame.1 3 ⟨[], [7], false⟩ rfl,
   claim8_invalid_frame.2.1 3 ⟨[], [7], true⟩,
   claim8_invalid_frame.2.2.1 3 [] [] ⟨[], [], false⟩
     (by rw [Mark5BFrame.fromdata, encodePayload, if_pos rfl]; rfl),
   claim8_invalid_frame.2.2.2⟩

/-- Modelled from the spec: the stream cursor state — start time, nominal
sample rate, total size in samples, and a cursor in samples from the
stream start. -/
structure StreamState where
  startTime : ℚ
  sampleRate : ℚ
  size : Nat
  cursor : Int

/-- Modelled from the spec: `seek` with a sample-count target just moves the
cursor. -/
def StreamState.seekSample (st : StreamState) (n : Int) : StreamState :=
  { st with cursor := n }

/-- Modelled from the spec: `tell()` returns the cursor as a sample count. -/
def StreamState.tellSample (st : StreamState) : Int := st.cursor

/-- Modelled from the spec: `tell(unit=time)` returns
`start time + cursor / sample rate`. -/
def StreamState.tellTime (st : StreamState) : ℚ :=
  st.startTime + st.cursor / st.sampleRate

/-- Modelled from the spec: `seek` with an absolute-timestamp target converts
it via `(target - start time) * sample rate`, rounded to the nearest integer
sample. -/
def StreamState.seekTime (st : StreamState) (t : ℚ) : StreamState :=
  { st with cursor := round ((t - st.startTime) * st.sampleRate) }

/-- Claim C9: on a stream, seek to an in-range sample count followed by tell
returns that count; tell in the time unit returns start time plus cursor over
sample rate; and seek to an absolute timestamp followed by tell in the time
unit is within one sample period of the target. -/
theorem claim9_seek_tell :
    (∀ (st : StreamState) (n : Int), 0 ≤ n → n ≤ (st.size : Int) →
      (st.seekSample n).tellSample = n) ∧
    (∀ st : StreamState,
      st.tellTime = st.startTime + st.cursor / st.sampleRate) ∧
    (∀ (st : StreamState) (t : ℚ), 0 < st.sampleRate →
      |(st.seekTime t).tellTime - t| ≤ 1 / st.sampleRate) := by
  refine ⟨fun st n _ _ => rfl, fun st => rfl, ?_⟩
  intro st t hr
  have hrne : st.sampleRate ≠ 0 := ne_of_gt hr
  simp only [StreamState.seekTime, StreamState.tellTime]
  have key : st.startTime +
      (round ((t - st.startTime) * st.sampleRate) : ℚ) / st.sampleRate - t =
      ((round ((t - st.startTime) * st.sampleRate) : ℚ) -
        (t - st.startTime) * st.sampleRate) / st.sampleRate := by
    field_simp
    ring
  rw [key, abs_div, abs_of_pos hr]
  have h2 := abs_sub_round ((t - st.startTime) * st.sampleRate)
  rw [abs_sub_comm] at h2
  rw [div_le_div_iff hr hr]
  have hrpos : (0 : ℚ) < st.sampleRate := hr
  nlinarith [h2, hrpos]

theorem claim9_seek_tell_witness :
    ((⟨0, 2, 10, 0⟩ : StreamState).seekSample 5).tellSample = 5 ∧
    (⟨0, 2, 10, 3⟩ : StreamState).tellTime = 0 + 3 / 2 ∧
    |(((⟨0, 2, 10, 0⟩ : StreamState).seekTime (3 / 4)).tellTime - 3 / 4)| ≤ 1 / 2 :=
  ⟨claim9_seek_tell.1 ⟨0, 2, 10, 0⟩ 5 (by norm_num) (by norm_num),
   claim9_seek_tell.2.1 ⟨0, 2, 10, 3⟩,
   claim9_seek_tell.2.2 ⟨0, 2, 10, 0⟩ (3 / 4) (by norm_num)⟩
